import Mathlib

/-!
Verification of the Echelon governance-risk feature-engineering pipeline.

The pipeline (src/features/*.py, scripts/run_feature_engineering.py) turns a
cleaned access-event table into 12 per-user behavioral features, role-peer
z-scores, a weighted raw risk score, a dataset-relative min-max rescaled
governance risk score in [0,100], and a Low/Medium/High category.

We shallowly embed the numeric pipeline with exact rationals for the data and
an explicit IEEE-style extended value type `FVal` (finite real, +inf, -inf,
NaN) capturing the pandas/numpy semantics that the code relies on:
sample statistics with ddof = 1 (NaN on singleton groups), NaN-propagating
arithmetic, `fillna`, NaN-skipping `min`/`max`, and comparisons in which NaN
compares false.
-/

/-- IEEE-style extended value: a finite real, plus/minus infinity, or NaN.
Models the float values flowing through the pandas pipeline. -/
inductive FVal where
  | fin (x : ℝ) : FVal
  | pinf : FVal
  | ninf : FVal
  | nan : FVal

namespace FVal

/-- IEEE addition on extended values: NaN propagates, inf + (-inf) = NaN. -/
def add : FVal → FVal → FVal
  | nan, _ => nan
  | _, nan => nan
  | fin a, fin b => fin (a + b)
  | fin _, pinf => pinf
  | fin _, ninf => ninf
  | pinf, fin _ => pinf
  | ninf, fin _ => ninf
  | pinf, pinf => pinf
  | ninf, ninf => ninf
  | pinf, ninf => nan
  | ninf, pinf => nan

/-- IEEE negation. -/
def neg : FVal → FVal
  | fin a => fin (-a)
  | pinf => ninf
  | ninf => pinf
  | nan => nan

/-- IEEE subtraction. -/
def sub (x y : FVal) : FVal := add x (neg y)

open Classical in
/-- IEEE multiplication: NaN propagates, 0 * inf = NaN. -/
noncomputable def mul : FVal → FVal → FVal
  | nan, _ => nan
  | _, nan => nan
  | fin a, fin b => fin (a * b)
  | fin a, pinf => if a = 0 then nan else if 0 < a then pinf else ninf
  | fin a, ninf => if a = 0 then nan else if 0 < a then ninf else pinf
  | pinf, fin b => if b = 0 then nan else if 0 < b then pinf else ninf
  | ninf, fin b => if b = 0 then nan else if 0 < b then ninf else pinf
  | pinf, pinf => pinf
  | ninf, ninf => pinf
  | pinf, ninf => ninf
  | ninf, pinf => ninf

open Classical in
/-- IEEE division: finite/0 gives NaN (0/0) or a signed infinity, NaN
propagates, finite/inf = 0. -/
noncomputable def div : FVal → FVal → FVal
  | nan, _ => nan
  | _, nan => nan
  | fin a, fin b =>
      if b = 0 then (if a = 0 then nan else if 0 < a then pinf else ninf)
      else fin (a / b)
  | fin _, pinf => fin 0
  | fin _, ninf => fin 0
  | pinf, fin b => if 0 ≤ b then pinf else ninf
  | ninf, fin b => if 0 ≤ b then ninf else pinf
  | pinf, pinf => nan
  | pinf, ninf => nan
  | ninf, pinf => nan
  | ninf, ninf => nan

/-- pandas `fillna d`: replaces NaN by `d`, leaves every other value alone
(in particular infinities survive). -/
def fillna (d : ℝ) : FVal → FVal
  | nan => fin d
  | x => x

/-- pandas `clip lo hi`: clamps finite values, maps the infinities to the
bounds, and leaves NaN as NaN. -/
def clip (lo hi : ℝ) : FVal → FVal
  | fin x => fin (max lo (min x hi))
  | pinf => fin hi
  | ninf => fin lo
  | nan => nan

/-- Python `v <= c` for a float `v` against a finite constant: NaN and +inf
compare false, -inf compares true. -/
def leC (v : FVal) (c : ℝ) : Prop :=
  match v with
  | fin x => x ≤ c
  | ninf => True
  | pinf => False
  | nan => False

open Classical in
/-- Python `q > v` for a finite float `q` against an extended value: any
comparison with NaN is false. -/
noncomputable def gtC (q : ℚ) : FVal → Bool
  | fin t => decide (t < (q : ℝ))
  | pinf => false
  | ninf => true
  | nan => false

@[simp] theorem gtC_nan (q : ℚ) : gtC q nan = false := rfl

open Classical in
/-- One step of a NaN-skipping minimum (pandas `Series.min` semantics):
NaN acts as the identity, otherwise the usual order with ninf least. -/
noncomputable def min2 : FVal → FVal → FVal
  | nan, y => y
  | x, nan => x
  | ninf, _ => ninf
  | _, ninf => ninf
  | fin a, fin b => fin (min a b)
  | fin a, pinf => fin a
  | pinf, y => y

open Classical in
/-- One step of a NaN-skipping maximum (pandas `Series.max` semantics). -/
noncomputable def max2 : FVal → FVal → FVal
  | nan, y => y
  | x, nan => x
  | pinf, _ => pinf
  | _, pinf => pinf
  | fin a, fin b => fin (max a b)
  | fin a, ninf => fin a
  | ninf, y => y

/-- pandas `Series.min` over a column: skips NaN, NaN when no valid value. -/
noncomputable def minF (l : List FVal) : FVal := l.foldl min2 nan

/-- pandas `Series.max` over a column: skips NaN, NaN when no valid value. -/
noncomputable def maxF (l : List FVal) : FVal := l.foldl max2 nan

@[simp] theorem add_fin_fin (a b : ℝ) : add (fin a) (fin b) = fin (a + b) := rfl

@[simp] theorem add_nan_right (x : FVal) : add x nan = nan := by cases x <;> rfl

@[simp] theorem add_nan_left (x : FVal) : add nan x = nan := by cases x <;> rfl

@[simp] theorem mul_fin_fin (a b : ℝ) : mul (fin a) (fin b) = fin (a * b) := rfl

@[simp] theorem mul_nan_right (x : FVal) : mul x nan = nan := by cases x <;> rfl

@[simp] theorem mul_nan_left (x : FVal) : mul nan x = nan := by cases x <;> rfl

@[simp] theorem sub_fin_fin (a b : ℝ) : sub (fin a) (fin b) = fin (a - b) := by
  simp [sub, add, neg]; ring

theorem div_fin_fin_of_ne (a b : ℝ) (hb : b ≠ 0) :
    div (fin a) (fin b) = fin (a / b) := by
  simp [div, hb]

@[simp] theorem div_zero_zero : div (fin 0) (fin 0) = nan := by simp [div]

@[simp] theorem div_nan_left (x : FVal) : div nan x = nan := by cases x <;> rfl

@[simp] theorem div_nan_right (x : FVal) : div x nan = nan := by cases x <;> rfl

@[simp] theorem fillna_fin (d a : ℝ) : fillna d (fin a) = fin a := rfl

@[simp] theorem fillna_nan (d : ℝ) : fillna d nan = fin d := rfl

@[simp] theorem clip_fin (lo hi x : ℝ) :
    clip lo hi (fin x) = fin (max lo (min x hi)) := rfl

@[simp] theorem clip_nan (lo hi : ℝ) : clip lo hi nan = nan := rfl

@[simp] theorem min2_nan_left (x : FVal) : min2 nan x = x := by cases x <;> rfl

@[simp] theorem min2_nan_right (x : FVal) : min2 x nan = x := by cases x <;> rfl

@[simp] theorem min2_fin_fin (a b : ℝ) : min2 (fin a) (fin b) = fin (min a b) := rfl

@[simp] theorem max2_nan_left (x : FVal) : max2 nan x = x := by cases x <;> rfl

@[simp] theorem max2_nan_right (x : FVal) : max2 x nan = x := by cases x <;> rfl

@[simp] theorem max2_fin_fin (a b : ℝ) : max2 (fin a) (fin b) = fin (max a b) := rfl

theorem fin_injective (a b : ℝ) (h : fin a = fin b) : a = b := by
  injection h

end FVal

/-! ### Exact rational list statistics (pandas with ddof = 1) -/

/-- Arithmetic mean of a rational column (junk 0 on the empty list, which the
pipeline never queries). -/
def meanQ (l : List ℚ) : ℚ := l.sum / (l.length : ℚ)

/-- Sample variance with ddof = 1, as pandas computes it (junk on lists of
length at most 1, where pandas yields NaN; every use is gated on the length). -/
def sampleVarQ (l : List ℚ) : ℚ :=
  ((l.map (fun x => (x - meanQ l) ^ 2)).sum) / ((l.length : ℚ) - 1)

/-- pandas sample standard deviation of a rational column: NaN when the
column has at most one entry, otherwise the square root of the sample
variance. -/
noncomputable def stdF (l : List ℚ) : FVal :=
  if l.length ≤ 1 then FVal.nan
  else FVal.fin (Real.sqrt ((sampleVarQ l : ℚ) : ℝ))

theorem sum_map_sq_sub (l : List ℚ) (c : ℚ) :
    (l.map (fun x => (x - c) ^ 2)).sum =
      (l.map (fun x => x ^ 2)).sum - 2 * c * l.sum + (l.length : ℚ) * c ^ 2 := by
  induction l with
  | nil => simp
  | cons a t ih => simp [ih]; ring

theorem sampleVarQ_nonneg (l : List ℚ) (h : 2 ≤ l.length) : 0 ≤ sampleVarQ l := by
  unfold sampleVarQ
  apply div_nonneg
  · apply List.sum_nonneg
    intro x hx
    rcases List.mem_map.mp hx with ⟨y, _, rfl⟩
    positivity
  · have : (2 : ℚ) ≤ (l.length : ℚ) := by exact_mod_cast h
    linarith

theorem sum_eq_zero_of_nonneg (l : List ℚ) (hnn : ∀ x ∈ l, 0 ≤ x)
    (hs : l.sum = 0) : ∀ x ∈ l, x = 0 := by
  induction l with
  | nil => intro x hx; cases hx
  | cons a t ih =>
      have ha : 0 ≤ a := hnn a (List.mem_cons_self a t)
      have ht : 0 ≤ t.sum :=
        List.sum_nonneg (fun x hx => hnn x (List.mem_cons_of_mem a hx))
      have hsum : a + t.sum = 0 := by simpa using hs
      have ha0 : a = 0 := by linarith
      have hts : t.sum = 0 := by linarith
      intro x hx
      rcases List.mem_cons.mp hx with rfl | hx
      · exact ha0
      · exact ih (fun y hy => hnn y (List.mem_cons_of_mem a hy)) hts x hx

theorem sampleVarQ_eq_zero_iff (l : List ℚ) (h : 2 ≤ l.length) :
    sampleVarQ l = 0 ↔ ∀ x ∈ l, x = meanQ l := by
  have hlen : ((l.length : ℚ) - 1) ≠ 0 := by
    have : (2 : ℚ) ≤ (l.length : ℚ) := by exact_mod_cast h
    intro hc; linarith
  unfold sampleVarQ
  rw [div_eq_zero_iff]
  constructor
  · rintro (hs | hc)
    · intro x hx
      have hnn : ∀ y ∈ l.map (fun x => (x - meanQ l) ^ 2), 0 ≤ y := by
        intro y hy
        rcases List.mem_map.mp hy with ⟨z, _, rfl⟩
        positivity
      have hz : ((x - meanQ l) ^ 2) = 0 := by
        have hmem : ((x - meanQ l) ^ 2) ∈ l.map (fun x => (x - meanQ l) ^ 2) :=
          List.mem_map.mpr ⟨x, hx, rfl⟩
        exact sum_eq_zero_of_nonneg _ hnn hs _ hmem
      have := pow_eq_zero_iff (n := 2) (by norm_num) |>.mp hz
      linarith [sub_eq_zero.mp this]
    · exact absurd hc hlen
  · intro hall
    left
    apply List.sum_eq_zero
    intro y hy
    rcases List.mem_map.mp hy with ⟨z, hz, rfl⟩
    rw [hall z hz]
    ring

theorem constant_mean (l : List ℚ) (c : ℚ) (hne : l ≠ [])
    (hall : ∀ x ∈ l, x = c) : meanQ l = c := by
  have hsum : l.sum = (l.length : ℚ) * c := by
    induction l with
    | nil => simp
    | cons a t ih =>
        have ha := hall a (List.mem_cons_self a t)
        by_cases ht : t = []
        · subst ht; simp [ha]
        · have := ih ht (fun x hx => hall x (List.mem_cons_of_mem a hx))
          simp [this, ha]; ring
  have hlen : (l.length : ℚ) ≠ 0 :=
    Nat.cast_ne_zero.mpr (List.length_pos.mpr hne).ne'
  unfold meanQ
  rw [hsum]
  field_simp

theorem constant_var (l : List ℚ) (c : ℚ) (hne : l ≠ [])
    (hall : ∀ x ∈ l, x = c) : sampleVarQ l = 0 := by
  unfold sampleVarQ
  have : (l.map (fun x => (x - meanQ l) ^ 2)).sum = 0 := by
    apply List.sum_eq_zero
    intro y hy
    rcases List.mem_map.mp hy with ⟨z, hz, rfl⟩
    rw [hall z hz, constant_mean l c hne hall]
    ring
  rw [this, zero_div]

/-! ### The feature table

One `FRow` is one event row of the feature-engineered table, carrying the
user's role and the 12 broadcast user-level features (the input of
`calculate_role_based_zscores` / `calculate_governance_risk_score` in
src/features/risk_scoring.py). -/

structure FRow where
  user_id : ℕ
  role : ℕ
  avg_daily_access : ℚ
  export_ratio : ℚ
  unique_resources : ℚ
  avg_session_duration : ℚ
  night_access_pct : ℚ
  weekend_activity_ratio : ℚ
  access_time_variance : ℚ
  weekly_access_change : ℚ
  access_spike_score : ℚ
  privilege_usage_gap : ℚ
  privilege_usage_ratio : ℚ
  resource_access_concentration : ℚ
deriving DecidableEq

/-- The 12 features normalized by `calculate_role_based_zscores`, in the
order of its `features_to_normalize` list. -/
def featureSels : List (FRow → ℚ) :=
  [ (fun r => r.avg_daily_access),
    (fun r => r.export_ratio),
    (fun r => r.unique_resources),
    (fun r => r.avg_session_duration),
    (fun r => r.night_access_pct),
    (fun r => r.weekend_activity_ratio),
    (fun r => r.access_time_variance),
    (fun r => r.weekly_access_change),
    (fun r => r.access_spike_score),
    (fun r => r.privilege_usage_gap),
    (fun r => r.privilege_usage_ratio),
    (fun r => r.resource_access_concentration) ]

/-- The column of values of feature `sel` over all event rows of role `ρ`:
the grouping `df.groupby('role')[feature]` of `calculate_role_based_zscores`. -/
def roleVals (tbl : List FRow) (sel : FRow → ℚ) (ρ : ℕ) : List ℚ :=
  (tbl.filter (fun r => r.role = ρ)).map sel

/-- The z-score of value `x` against the role column `vals`:
`((df[f] - role_mean) / role_std).fillna(0)` from
`calculate_role_based_zscores`.  The division is IEEE: a NaN std (singleton
group) or 0/0 (zero std, value at the mean) gives NaN, which `fillna`
replaces by 0; a zero std with a value off the mean would give an infinity
that `fillna` does not touch. -/
noncomputable def zscoreVal (x : ℚ) (vals : List ℚ) : FVal :=
  FVal.fillna 0
    (FVal.div (FVal.fin ((x : ℝ) - (meanQ vals : ℝ))) (stdF vals))

/-- The fixed weight table of `calculate_governance_risk_score`
(`risk_weights`), in source order, keyed by the feature column it weighs. -/
def riskWeights : List ((FRow → ℚ) × ℚ) :=
  [ ((fun r => r.privilege_usage_gap), 15/100),
    ((fun r => r.privilege_usage_ratio), 10/100),
    ((fun r => r.resource_access_concentration), 5/100),
    ((fun r => r.export_ratio), 15/100),
    ((fun r => r.avg_daily_access), 12/100),
    ((fun r => r.unique_resources), 10/100),
    ((fun r => r.night_access_pct), 8/100),
    ((fun r => r.avg_session_duration), 6/100),
    ((fun r => r.weekend_activity_ratio), 4/100),
    ((fun r => r.access_time_variance), 5/100),
    ((fun r => r.weekly_access_change), 5/100),
    ((fun r => r.access_spike_score), 5/100) ]

/-- `raw_risk_score` of row `r` in table `tbl`:
`sum(df[feature] * weight for feature, weight in risk_weights.items())`,
where each `df[feature]` is the broadcast z-score column. -/
noncomputable def rawScore (tbl : List FRow) (r : FRow) : FVal :=
  riskWeights.foldl
    (fun acc p =>
      FVal.add acc
        (FVal.mul (zscoreVal (p.1 r) (roleVals tbl p.1 r.role))
          (FVal.fin ((p.2 : ℚ) : ℝ))))
    (FVal.fin 0)

/-- The `raw_risk_score` column over the whole table. -/
noncomputable def rawList (tbl : List FRow) : List FVal :=
  tbl.map (rawScore tbl)

/-- `governance_risk_score` of row `r`:
`(((raw - raw.min()) / (raw.max() - raw.min())) * 100).clip(0, 100)` from
`calculate_governance_risk_score`. -/
noncomputable def govScore (tbl : List FRow) (r : FRow) : FVal :=
  FVal.clip 0 100
    (FVal.mul
      (FVal.div (FVal.sub (rawScore tbl r) (FVal.minF (rawList tbl)))
        (FVal.sub (FVal.maxF (rawList tbl)) (FVal.minF (rawList tbl))))
      (FVal.fin 100))

/-- The scoring step guarded by its initialization-time assertion
`assert abs(total_weight - 1.0) < 0.001`: the whole run fails (`none`) if
the weight table is misconfigured, and the guard inspects only the weight
table, never the rows. -/
noncomputable def governanceOutput (tbl : List FRow) : Option (List FVal) :=
  if abs ((riskWeights.map (fun p => p.2)).sum - 1) < 1/1000 then
    some (tbl.map (govScore tbl))
  else none

def lowCat : String := "Low"

def medCat : String := "Medium"

def highCat : String := "High"

open Classical in
/-- `categorize_risk` from src/features/risk_scoring.py, applied to an
extended score value exactly as Python applies `<=` to a float: for a NaN
score both `score <= 30` and `score <= 60` are false. -/
noncomputable def categorize_risk (score : FVal) : String :=
  if FVal.leC score 30 then lowCat
  else if FVal.leC score 60 then medCat
  else highCat

/-! ### The event table

One cleaned access-log row, as consumed by the per-user aggregators.
Identifiers and categorical values are coded as naturals; `timestamp` enters
the pipeline only through its derived parts (`hour`, `day_of_week`, `week`,
`date`). -/

structure AccessEvent where
  user_id : ℕ
  role : ℕ
  resource_type : ℕ
  action : ℕ
  hour : ℕ
  day_of_week : ℕ
  week : ℕ
  date : ℕ
  session_duration : ℚ
  access_volume : ℚ
  assigned_resource_count : ℕ
  actively_used_resource_count : ℕ
deriving DecidableEq

/-- All events of one user: `df.groupby('user_id')` restricted to `u`. -/
def eventsOf (tbl : List AccessEvent) (u : ℕ) : List AccessEvent :=
  tbl.filter (fun e => e.user_id = u)

/-- The night flag of `calculate_night_access_pct`
(src/features/temporal_features.py):
`(df['hour'] >= 22) | (df['hour'] <= 6)`. -/
def is_night (h : ℕ) : Bool := decide (22 ≤ h) || decide (h ≤ 6)

/-- The `hour` column of one user's events, as rationals. -/
def hoursOf (tbl : List AccessEvent) (u : ℕ) : List ℚ :=
  (eventsOf tbl u).map (fun e => (e.hour : ℚ))

/-- `calculate_access_time_variance`: per-user sample variance of `hour`
(`df.groupby('user_id')['hour'].var()`, NaN for a single event), then
`.fillna(0)`. -/
noncomputable def calculate_access_time_variance
    (tbl : List AccessEvent) (u : ℕ) : FVal :=
  FVal.fillna 0
    (if (hoursOf tbl u).length ≤ 1 then FVal.nan
     else FVal.fin ((sampleVarQ (hoursOf tbl u) : ℚ) : ℝ))

/-- Insert into a sorted list of naturals (ascending). -/
def insertSorted (x : ℕ) : List ℕ → List ℕ
  | [] => [x]
  | y :: t => if x ≤ y then x :: y :: t else y :: insertSorted x t

/-- Insertion sort, ascending. -/
def sortNat (l : List ℕ) : List ℕ := l.foldr insertSorted []

/-- The distinct ISO weeks in which user `u` has at least one event, in
ascending order — the group keys of `df.groupby(['user_id','week'])`. -/
def weeksOf (tbl : List AccessEvent) (u : ℕ) : List ℕ :=
  sortNat (((eventsOf tbl u).map (fun e => e.week)).dedup)

/-- Weekly aggregate access volume of user `u`, one entry per active week in
ascending week order: `df.groupby(['user_id','week'])['access_volume'].sum()`. -/
def weeklySums (tbl : List AccessEvent) (u : ℕ) : List ℚ :=
  (weeksOf tbl u).map
    (fun w => (((eventsOf tbl u).filter (fun e => e.week = w)).map
        (fun e => e.access_volume)).sum)

/-- First differences of consecutive entries: pandas `.diff()` with the
leading NaN dropped (as the later NaN-skipping `.std()` drops it). -/
def diffsOf : List ℚ → List ℚ
  | a :: b :: t => (b - a) :: diffsOf (b :: t)
  | _ => []

/-- `calculate_weekly_access_change` (src/features/stability_features.py):
std of week-over-week changes of aggregate access volume, `.fillna(0)`.
With `w` active weeks there are `w - 1` valid differences, and the ddof = 1
std is NaN when fewer than two of them exist. -/
noncomputable def calculate_weekly_access_change
    (tbl : List AccessEvent) (u : ℕ) : FVal :=
  FVal.fillna 0 (stdF (diffsOf (weeklySums tbl u)))

/-- The `access_volume` column of one user's events. -/
def volsOf (tbl : List AccessEvent) (u : ℕ) : List ℚ :=
  (eventsOf tbl u).map (fun e => e.access_volume)

/-- The per-user spike threshold of `calculate_access_spike_score`:
`mean + 2 * std` of the user's `access_volume` (NaN for a single event,
since the ddof = 1 std is NaN). -/
noncomputable def spike_threshold (tbl : List AccessEvent) (u : ℕ) : FVal :=
  FVal.add (FVal.fin ((meanQ (volsOf tbl u) : ℚ) : ℝ))
    (FVal.mul (FVal.fin 2) (stdF (volsOf tbl u)))

/-- `calculate_access_spike_score`: the percentage of the user's events with
`access_volume > spike_threshold` (a comparison that is false when the
threshold is NaN). NaN for a user with no events. -/
noncomputable def calculate_access_spike_score
    (tbl : List AccessEvent) (u : ℕ) : FVal :=
  if (eventsOf tbl u).length = 0 then FVal.nan
  else
    FVal.fin
      ((100 : ℝ) *
        (((eventsOf tbl u).filter
            (fun e => FVal.gtC e.access_volume (spike_threshold tbl u))).length) /
        ((eventsOf tbl u).length))

/-- The distinct resource types touched by user `u`. -/
def resourcesOf (tbl : List AccessEvent) (u : ℕ) : List ℕ :=
  ((eventsOf tbl u).map (fun e => e.resource_type)).dedup

/-- Per-user, per-resource event counts: the value column of
`df.groupby(['user_id','resource_type']).size()` restricted to user `u`. -/
def resourceCounts (tbl : List AccessEvent) (u : ℕ) : List ℚ :=
  (resourcesOf tbl u).map
    (fun rt => (((eventsOf tbl u).filter (fun e => e.resource_type = rt)).length : ℚ))

open Classical in
/-- `calculate_resource_access_concentration`
(src/features/privilege_intelligence.py): the coefficient of variation
`x.std() / x.mean() if x.mean() > 0 else 0` of the per-resource counts,
with pandas ddof = 1 std (NaN on a single count). -/
noncomputable def calculate_resource_access_concentration
    (tbl : List AccessEvent) (u : ℕ) : FVal :=
  if 0 < meanQ (resourceCounts tbl u) then
    FVal.div (stdF (resourceCounts tbl u))
      (FVal.fin ((meanQ (resourceCounts tbl u) : ℚ) : ℝ))
  else FVal.fin 0

/-! ### Claim C6: the night-access boundary -/

/-- Claim C6: an event is counted as night access if and only if its hour
satisfies `hour >= 22 OR hour <= 6`; in particular hours 6 and 22 count as
night while hours 7 and 21 do not. -/
theorem night_access_boundary :
    (∀ e : AccessEvent, is_night e.hour = true ↔ (22 ≤ e.hour ∨ e.hour ≤ 6)) ∧
    is_night 6 = true ∧ is_night 22 = true ∧
    is_night 7 = false ∧ is_night 21 = false := by
  refine ⟨fun e => ?_, by decide, by decide, by decide, by decide⟩
  simp [is_night]

/-! ### Claim C4: the weight-table invariant -/

/-- Claim C4: the fixed weight table of the Risk Composer sums to exactly 1
(hence is within every positive tolerance of 1), and the sum-check is the
one-time initialization guard of the scoring step: it depends only on the
weight table, so it passes on every input table and the scoring step never
fails on it. -/
theorem risk_weights_invariant :
    (riskWeights.map (fun p => p.2)).sum = 1 ∧
    abs ((riskWeights.map (fun p => p.2)).sum - 1) < 1/1000000 ∧
    ∀ tbl : List FRow, governanceOutput tbl = some (tbl.map (govScore tbl)) := by
  refine ⟨by norm_num [riskWeights], by norm_num [riskWeights], fun tbl => ?_⟩
  rw [governanceOutput, if_pos]
  norm_num [riskWeights]

/-! ### Claim C2: zero role std forces zero z-scores -/

theorem mem_roleVals (tbl : List FRow) (sel : FRow → ℚ) (r : FRow)
    (hr : r ∈ tbl) : sel r ∈ roleVals tbl sel r.role := by
  unfold roleVals
  exact List.mem_map.mpr ⟨r, List.mem_filter.mpr ⟨hr, by simp⟩, rfl⟩

theorem stdF_eq_zero (l : List ℚ) (h : stdF l = FVal.fin 0) :
    2 ≤ l.length ∧ sampleVarQ l = 0 := by
  unfold stdF at h
  by_cases hl : l.length ≤ 1
  · rw [if_pos hl] at h; cases h
  · rw [if_neg hl] at h
    have hlen : 2 ≤ l.length := by omega
    have hs : Real.sqrt ((sampleVarQ l : ℚ) : ℝ) = 0 := FVal.fin_injective _ _ h
    have hnn : (0 : ℝ) ≤ ((sampleVarQ l : ℚ) : ℝ) := by
      exact_mod_cast sampleVarQ_nonneg l hlen
    have : ((sampleVarQ l : ℚ) : ℝ) = 0 := by
      have := Real.sqrt_eq_zero hnn |>.mp hs
      exact this
    exact ⟨hlen, by exact_mod_cast this⟩

/-- Claim C2: for each of the 12 normalized features and every role group,
whenever the role-specific sample standard deviation of the feature over all
event rows of the role is 0, the z-score of every row of that role is the
finite value 0 — never NaN or an infinity. -/
theorem zscore_zero_of_zero_std (tbl : List FRow) (sel : FRow → ℚ)
    (_hsel : sel ∈ featureSels) (ρ : ℕ)
    (hstd : stdF (roleVals tbl sel ρ) = FVal.fin 0) :
    ∀ r ∈ tbl, r.role = ρ → zscoreVal (sel r) (roleVals tbl sel ρ) = FVal.fin 0 := by
  intro r hr hrole
  obtain ⟨hlen, hvar⟩ := stdF_eq_zero _ hstd
  have hall := (sampleVarQ_eq_zero_iff _ hlen).mp hvar
  have hmem : sel r ∈ roleVals tbl sel ρ := by
    subst hrole
    exact mem_roleVals tbl sel r hr
  have hx : sel r = meanQ (roleVals tbl sel ρ) := hall _ hmem
  unfold zscoreVal
  rw [hstd]
  have hnum : ((sel r : ℚ) : ℝ) - ((meanQ (roleVals tbl sel ρ) : ℚ) : ℝ) = 0 := by
    rw [hx]; ring
  rw [hnum]
  simp

def wRow1 : FRow := ⟨1, 0, 5, 5, 5, 5, 5, 5, 5, 5, 5, 5, 5, 5⟩

def wRow2 : FRow := ⟨2, 0, 5, 5, 5, 5, 5, 5, 5, 5, 5, 5, 5, 5⟩

def wTbl : List FRow := [wRow1, wRow2]

theorem roleVals_wTbl :
    roleVals wTbl (fun r => r.avg_daily_access) 0 = [5, 5] := rfl

theorem stdF_wTbl :
    stdF (roleVals wTbl (fun r => r.avg_daily_access) 0) = FVal.fin 0 := by
  rw [roleVals_wTbl]
  unfold stdF
  rw [if_neg (by norm_num)]
  norm_num [sampleVarQ, meanQ]

theorem zscore_zero_of_zero_std_witness :
    ((fun r => r.avg_daily_access) ∈ featureSels) ∧
    stdF (roleVals wTbl (fun r => r.avg_daily_access) 0) = FVal.fin 0 ∧
    zscoreVal (wRow1.avg_daily_access)
      (roleVals wTbl (fun r => r.avg_daily_access) 0) = FVal.fin 0 :=
  ⟨by simp [featureSels], stdF_wTbl,
    zscore_zero_of_zero_std wTbl _ (by simp [featureSels]) 0 stdF_wTbl
      wRow1 (by simp [wTbl]) rfl⟩

/-! ### Claim C8: single-event fallbacks for variance and weekly change -/

/-- Claim C8: a user with exactly one event gets `access_time_variance = 0`
and `weekly_access_change = 0` (the defined `fillna(0)` fallbacks of the
NaN sample statistics), never NaN. -/
theorem single_event_fallbacks (tbl : List AccessEvent) (u : ℕ)
    (h : (eventsOf tbl u).length = 1) :
    calculate_access_time_variance tbl u = FVal.fin 0 ∧
    calculate_weekly_access_change tbl u = FVal.fin 0 := by
  obtain ⟨e, he⟩ := List.length_eq_one.mp h
  constructor
  · unfold calculate_access_time_variance
    rw [if_pos]
    · rfl
    · unfold hoursOf
      rw [he]
      simp
  · unfold calculate_weekly_access_change weeklySums weeksOf
    rw [he]
    simp [sortNat, insertSorted, diffsOf, stdF]

def eEvt : AccessEvent := ⟨7, 0, 0, 0, 9, 0, 3, 0, 10, 4, 5, 2⟩

def eTbl : List AccessEvent := [eEvt]

theorem single_event_fallbacks_witness :
    (eventsOf eTbl 7).length = 1 ∧
    calculate_access_time_variance eTbl 7 = FVal.fin 0 ∧
    calculate_weekly_access_change eTbl 7 = FVal.fin 0 :=
  ⟨rfl, (single_event_fallbacks eTbl 7 rfl).1, (single_event_fallbacks eTbl 7 rfl).2⟩

/-! ### Claim C10: single-event spike score -/

/-- Claim C10: a user with exactly one event gets `access_spike_score = 0`:
the ddof = 1 std of one `access_volume` is NaN, so the threshold
`mean + 2*std` is NaN, the strict comparison with NaN is false for the
event, and the spike percentage is 0 rather than NaN. -/
theorem single_event_spike_score (tbl : List AccessEvent) (u : ℕ)
    (h : (eventsOf tbl u).length = 1) :
    calculate_access_spike_score tbl u = FVal.fin 0 := by
  have hthr : spike_threshold tbl u = FVal.nan := by
    unfold spike_threshold
    have : stdF (volsOf tbl u) = FVal.nan := by
      unfold stdF
      rw [if_pos]
      unfold volsOf
      rw [List.length_map, h]
    rw [this]
    simp
  unfold calculate_access_spike_score
  rw [if_neg (by omega)]
  have hfilter :
      (eventsOf tbl u).filter
        (fun e => FVal.gtC e.access_volume (spike_threshold tbl u)) = [] := by
    rw [List.filter_eq_nil_iff]
    intro e _
    rw [hthr]
    simp
  rw [hfilter, h]
  norm_num

theorem single_event_spike_score_witness :
    (eventsOf eTbl 7).length = 1 ∧
    calculate_access_spike_score eTbl 7 = FVal.fin 0 :=
  ⟨rfl, single_event_spike_score eTbl 7 rfl⟩

/-! ### Claim C3: concentration of a single-resource user

The claim says a user touching exactly one distinct resource type gets
`resource_access_concentration = 0` because "the std of the single
per-resource count is 0".  In pandas the ddof = 1 std of a single value is
NaN, not 0, so the CV is NaN/mean = NaN: the code assigns NaN, and the
0 fallback fires only when the mean is 0, which cannot happen. -/

def cTbl3 : List AccessEvent := [⟨3, 0, 5, 0, 0, 0, 0, 0, 1, 1, 1, 1⟩]

theorem concentration_single_resource_counterexample :
    (resourcesOf cTbl3 3).length = 1 ∧
    calculate_resource_access_concentration cTbl3 3 = FVal.nan ∧
    FVal.nan ≠ FVal.fin 0 := by
  refine ⟨rfl, ?_, fun h => FVal.noConfusion h⟩
  unfold calculate_resource_access_concentration
  rw [if_pos]
  · have : stdF (resourceCounts cTbl3 3) = FVal.nan := by
      unfold stdF
      rw [if_pos]
      rfl
    rw [this]
    simp
  · norm_num [resourceCounts, resourcesOf, eventsOf, cTbl3, meanQ]

/-- Claim C3 (amended): a user whose events touch exactly one distinct
`resource_type` is assigned `resource_access_concentration = NaN` (the
ddof = 1 std of the single per-resource count is NaN and the mean is
positive, so CV = NaN/mean = NaN), not 0. -/
theorem concentration_single_resource_nan (tbl : List AccessEvent) (u : ℕ)
    (h : (resourcesOf tbl u).length = 1) :
    calculate_resource_access_concentration tbl u = FVal.nan := by
  obtain ⟨rt, hrt⟩ := List.length_eq_one.mp h
  have hne : eventsOf tbl u ≠ [] := by
    intro hnil
    rw [resourcesOf, hnil] at hrt
    cases hrt
  obtain ⟨e, es, hees⟩ := List.exists_cons_of_ne_nil hne
  have hert : e.resource_type = rt := by
    have hmem : e.resource_type ∈ ((eventsOf tbl u).map (fun e => e.resource_type)).dedup := by
      rw [List.mem_dedup, List.mem_map]
      exact ⟨e, by rw [hees]; exact List.mem_cons_self _ _, rfl⟩
    rw [resourcesOf] at hrt
    rw [hrt] at hmem
    simpa using hmem
  have hcounts : resourceCounts tbl u =
      [(((eventsOf tbl u).filter (fun e => e.resource_type = rt)).length : ℚ)] := by
    rw [resourceCounts, hrt]
    rfl
  have hpos : 0 < ((eventsOf tbl u).filter (fun e => e.resource_type = rt)).length := by
    rw [List.length_pos]
    intro hnil
    have : e ∈ (eventsOf tbl u).filter (fun e => e.resource_type = rt) := by
      rw [List.mem_filter]
      exact ⟨by rw [hees]; exact List.mem_cons_self _ _, by simp [hert]⟩
    rw [hnil] at this
    cases this
  unfold calculate_resource_access_concentration
  rw [if_pos]
  · have : stdF (resourceCounts tbl u) = FVal.nan := by
      unfold stdF
      rw [if_pos]
      rw [hcounts]
      rfl
    rw [this]
    simp
  · rw [hcounts]
    unfold meanQ
    simp only [List.sum_cons, List.sum_nil, List.length_cons, List.length_nil]
    have : (0 : ℚ) < (((eventsOf tbl u).filter (fun e => e.resource_type = rt)).length : ℚ) := by
      exact_mod_cast hpos
    norm_num
    linarith

theorem concentration_single_resource_nan_witness :
    (resourcesOf cTbl3 3).length = 1 ∧
    calculate_resource_access_concentration cTbl3 3 = FVal.nan :=
  ⟨rfl, concentration_single_resource_nan cTbl3 3 rfl⟩

/-! ### Finiteness of in-table z-scores and raw scores -/

theorem zscoreVal_fin_of_mem (x : ℚ) (vals : List ℚ) (hx : x ∈ vals) :
    ∃ z : ℝ, zscoreVal x vals = FVal.fin z := by
  unfold zscoreVal
  by_cases hl : vals.length ≤ 1
  · rw [stdF, if_pos hl]
    exact ⟨0, by simp⟩
  · have hlen : 2 ≤ vals.length := by omega
    rw [stdF, if_neg hl]
    by_cases hv : sampleVarQ vals = 0
    · have hx0 : x = meanQ vals := (sampleVarQ_eq_zero_iff _ hlen).mp hv x hx
      have hnum : ((x : ℚ) : ℝ) - ((meanQ vals : ℚ) : ℝ) = 0 := by
        rw [hx0]; ring
      rw [hnum, hv]
      exact ⟨0, by norm_num⟩
    · have hpos : 0 < (sampleVarQ vals : ℝ) := by
        have h1 : (0 : ℚ) ≤ sampleVarQ vals := sampleVarQ_nonneg _ hlen
        have h2 : (0 : ℚ) < sampleVarQ vals := lt_of_le_of_ne h1 (Ne.symm hv)
        exact_mod_cast h2
      have hs : Real.sqrt ((sampleVarQ vals : ℚ) : ℝ) ≠ 0 := by
        have := Real.sqrt_pos.mpr hpos
        linarith
      rw [FVal.div_fin_fin_of_ne _ _ hs]
      exact ⟨_, rfl⟩

theorem foldl_add_fin_exists {α : Type} (L : List α) (f : α → FVal)
    (hf : ∀ x ∈ L, ∃ y, f x = FVal.fin y) :
    ∀ a : ℝ, ∃ s, L.foldl (fun acc x => FVal.add acc (f x)) (FVal.fin a) = FVal.fin s := by
  induction L with
  | nil => exact fun a => ⟨a, rfl⟩
  | cons v t ih =>
      intro a
      obtain ⟨y, hy⟩ := hf v (List.mem_cons_self v t)
      have ht := ih (fun x hx => hf x (List.mem_cons_of_mem v hx))
      obtain ⟨s, hs⟩ := ht (a + y)
      exact ⟨s, by simpa [hy] using hs⟩

theorem rawScore_fin (tbl : List FRow) (r : FRow) (hr : r ∈ tbl) :
    ∃ v : ℝ, rawScore tbl r = FVal.fin v := by
  unfold rawScore
  apply foldl_add_fin_exists
  intro p _
  obtain ⟨z, hz⟩ := zscoreVal_fin_of_mem (p.1 r) (roleVals tbl p.1 r.role)
    (mem_roleVals tbl p.1 r hr)
  exact ⟨z * (p.2 : ℝ), by rw [hz]; rfl⟩

/-! ### pandas min/max over a finite column -/

theorem foldl_min2_fin (t : List FVal) (hf : ∀ v ∈ t, ∃ y, v = FVal.fin y) :
    ∀ a : ℝ, ∃ m, t.foldl FVal.min2 (FVal.fin a) = FVal.fin m ∧
      (m = a ∨ FVal.fin m ∈ t) ∧ m ≤ a ∧ ∀ y, FVal.fin y ∈ t → m ≤ y := by
  induction t with
  | nil =>
      intro a
      exact ⟨a, rfl, Or.inl rfl, le_refl a, fun y hy => absurd hy (by simp)⟩
  | cons v t ih =>
      intro a
      obtain ⟨b, rfl⟩ := hf v (List.mem_cons_self v t)
      obtain ⟨m, hm, hmem, hle, hall⟩ :=
        ih (fun x hx => hf x (List.mem_cons_of_mem _ hx)) (min a b)
      refine ⟨m, by simpa using hm, ?_, le_trans hle (min_le_left a b), ?_⟩
      · rcases hmem with hma | hmt
        · rcases min_choice a b with hab | hab
          · exact Or.inl (by rw [hma, hab])
          · exact Or.inr (by rw [hma, hab]; exact List.mem_cons_self _ _)
        · exact Or.inr (List.mem_cons_of_mem _ hmt)
      · intro y hy
        rcases List.mem_cons.mp hy with hyb | hyt
        · have : y = b := (FVal.fin_injective _ _ hyb.symm).symm
          rw [this]
          exact le_trans hle (min_le_right a b)
        · exact hall y hyt

theorem foldl_max2_fin (t : List FVal) (hf : ∀ v ∈ t, ∃ y, v = FVal.fin y) :
    ∀ a : ℝ, ∃ m, t.foldl FVal.max2 (FVal.fin a) = FVal.fin m ∧
      (m = a ∨ FVal.fin m ∈ t) ∧ a ≤ m ∧ ∀ y, FVal.fin y ∈ t → y ≤ m := by
  induction t with
  | nil =>
      intro a
      exact ⟨a, rfl, Or.inl rfl, le_refl a, fun y hy => absurd hy (by simp)⟩
  | cons v t ih =>
      intro a
      obtain ⟨b, rfl⟩ := hf v (List.mem_cons_self v t)
      obtain ⟨m, hm, hmem, hle, hall⟩ :=
        ih (fun x hx => hf x (List.mem_cons_of_mem _ hx)) (max a b)
      refine ⟨m, by simpa using hm, ?_, le_trans (le_max_left a b) hle, ?_⟩
      · rcases hmem with hma | hmt
        · rcases max_choice a b with hab | hab
          · exact Or.inl (by rw [hma, hab])
          · exact Or.inr (by rw [hma, hab]; exact List.mem_cons_self _ _)
        · exact Or.inr (List.mem_cons_of_mem _ hmt)
      · intro y hy
        rcases List.mem_cons.mp hy with hyb | hyt
        · have : y = b := (FVal.fin_injective _ _ hyb.symm).symm
          rw [this]
          exact le_trans (le_max_right a b) hle
        · exact hall y hyt

theorem minF_fin_all (l : List FVal) (hne : l ≠ [])
    (hf : ∀ v ∈ l, ∃ y, v = FVal.fin y) :
    ∃ m, FVal.minF l = FVal.fin m ∧ FVal.fin m ∈ l ∧
      ∀ y, FVal.fin y ∈ l → m ≤ y := by
  obtain ⟨v, t, rfl⟩ := List.exists_cons_of_ne_nil hne
  obtain ⟨a, rfl⟩ := hf v (List.mem_cons_self v t)
  obtain ⟨m, hm, hmem, hle, hall⟩ :=
    foldl_min2_fin t (fun x hx => hf x (List.mem_cons_of_mem _ hx)) a
  refine ⟨m, ?_, ?_, ?_⟩
  · unfold FVal.minF
    simpa using hm
  · rcases hmem with hma | hmt
    · rw [hma]; exact List.mem_cons_self _ _
    · exact List.mem_cons_of_mem _ hmt
  · intro y hy
    rcases List.mem_cons.mp hy with hya | hyt
    · have : y = a := (FVal.fin_injective _ _ hya.symm).symm
      rw [this]; exact hle
    · exact hall y hyt

theorem maxF_fin_all (l : List FVal) (hne : l ≠ [])
    (hf : ∀ v ∈ l, ∃ y, v = FVal.fin y) :
    ∃ m, FVal.maxF l = FVal.fin m ∧ FVal.fin m ∈ l ∧
      ∀ y, FVal.fin y ∈ l → y ≤ m := by
  obtain ⟨v, t, rfl⟩ := List.exists_cons_of_ne_nil hne
  obtain ⟨a, rfl⟩ := hf v (List.mem_cons_self v t)
  obtain ⟨m, hm, hmem, hle, hall⟩ :=
    foldl_max2_fin t (fun x hx => hf x (List.mem_cons_of_mem _ hx)) a
  refine ⟨m, ?_, ?_, ?_⟩
  · unfold FVal.maxF
    simpa using hm
  · rcases hmem with hma | hmt
    · rw [hma]; exact List.mem_cons_self _ _
    · exact List.mem_cons_of_mem _ hmt
  · intro y hy
    rcases List.mem_cons.mp hy with hya | hyt
    · have : y = a := (FVal.fin_injective _ _ hya.symm).symm
      rw [this]; exact hle
    · exact hall y hyt

theorem rawList_all_fin (tbl : List FRow) :
    ∀ v ∈ rawList tbl, ∃ y, v = FVal.fin y := by
  intro v hv
  rcases List.mem_map.mp hv with ⟨r, hr, rfl⟩
  obtain ⟨y, hy⟩ := rawScore_fin tbl r hr
  exact ⟨y, hy⟩

/-! ### Claim C1: the min-max guarantee -/

/-- Claim C1: on every feature table whose raw risk scores are not all
identical, every row's `governance_risk_score` is a finite value in
[0, 100], at least one row scores exactly 0, and at least one row scores
exactly 100. -/
theorem governance_minmax (tbl : List FRow)
    (h : ∃ r1 ∈ tbl, ∃ r2 ∈ tbl, rawScore tbl r1 ≠ rawScore tbl r2) :
    (∀ r ∈ tbl, ∃ v : ℝ, govScore tbl r = FVal.fin v ∧ 0 ≤ v ∧ v ≤ 100) ∧
    (∃ r ∈ tbl, govScore tbl r = FVal.fin 0) ∧
    (∃ r ∈ tbl, govScore tbl r = FVal.fin 100) := by
  obtain ⟨r1, hr1, r2, hr2, hne⟩ := h
  have htne : tbl ≠ [] := List.ne_nil_of_mem hr1
  have hlne : rawList tbl ≠ [] := by
    unfold rawList
    simpa using htne
  obtain ⟨m, hmin, hminmem, hmlb⟩ := minF_fin_all _ hlne (rawList_all_fin tbl)
  obtain ⟨M, hmax, hmaxmem, hMub⟩ := maxF_fin_all _ hlne (rawList_all_fin tbl)
  obtain ⟨a, ha⟩ := rawScore_fin tbl r1 hr1
  obtain ⟨b, hb⟩ := rawScore_fin tbl r2 hr2
  have hmem_a : FVal.fin a ∈ rawList tbl := List.mem_map.mpr ⟨r1, hr1, ha⟩
  have hmem_b : FVal.fin b ∈ rawList tbl := List.mem_map.mpr ⟨r2, hr2, hb⟩
  have hab : a ≠ b := by
    intro he
    exact hne (by rw [ha, hb, he])
  have hmM : m < M := by
    rcases lt_or_eq_of_le (le_trans (hmlb a hmem_a) (hMub a hmem_a)) with hlt | heq
    · exact hlt
    · exfalso
      apply hab
      have ha1 : a = m := le_antisymm (by rw [heq]; exact hMub a hmem_a) (hmlb a hmem_a)
      have hb1 : b = m := le_antisymm (by rw [heq]; exact hMub b hmem_b) (hmlb b hmem_b)
      rw [ha1, hb1]
  have hMm : M - m ≠ 0 := sub_ne_zero.mpr (ne_of_gt hmM)
  have hform : ∀ r ∈ tbl, ∀ v : ℝ, rawScore tbl r = FVal.fin v →
      govScore tbl r = FVal.fin (max 0 (min ((v - m) / (M - m) * 100) 100)) := by
    intro r _ v hv
    unfold govScore
    rw [hv, hmin, hmax]
    rw [FVal.sub_fin_fin, FVal.sub_fin_fin, FVal.div_fin_fin_of_ne _ _ hMm]
    rw [FVal.mul_fin_fin, FVal.clip_fin]
  refine ⟨?_, ?_, ?_⟩
  · intro r hr
    obtain ⟨v, hv⟩ := rawScore_fin tbl r hr
    refine ⟨max 0 (min ((v - m) / (M - m) * 100) 100), hform r hr v hv, le_max_left _ _, ?_⟩
    exact max_le (by norm_num) (min_le_right _ 100)
  · obtain ⟨r0, hr0, hr0eq⟩ := List.mem_map.mp hminmem
    refine ⟨r0, hr0, ?_⟩
    rw [hform r0 hr0 m hr0eq]
    norm_num
  · obtain ⟨r0, hr0, hr0eq⟩ := List.mem_map.mp hmaxmem
    refine ⟨r0, hr0, ?_⟩
    rw [hform r0 hr0 M hr0eq]
    rw [div_self hMm]
    norm_num

/-! ### Claim C9: identical raw scores give NaN scores labeled High -/

/-- Claim C9: if every row's `raw_risk_score` is identical, the min-max
rescale divides 0 by 0, so `governance_risk_score` is NaN for every row
(the clip does not repair it), and `categorize_risk` then labels every row
High, because neither `NaN <= 30` nor `NaN <= 60` holds. -/
theorem identical_raw_scores_nan_high (tbl : List FRow)
    (h : ∀ r1 ∈ tbl, ∀ r2 ∈ tbl, rawScore tbl r1 = rawScore tbl r2) :
    ∀ r ∈ tbl, govScore tbl r = FVal.nan ∧
      categorize_risk (govScore tbl r) = highCat := by
  intro r hr
  obtain ⟨c, hc⟩ := rawScore_fin tbl r hr
  have hlne : rawList tbl ≠ [] := by
    unfold rawList
    simpa using List.ne_nil_of_mem hr
  have hall : ∀ v ∈ rawList tbl, ∃ y, v = FVal.fin y := rawList_all_fin tbl
  have hconst : ∀ v ∈ rawList tbl, v = FVal.fin c := by
    intro v hv
    rcases List.mem_map.mp hv with ⟨r2, hr2, rfl⟩
    rw [h r2 hr2 r hr, hc]
  obtain ⟨m, hmin, hminmem, _⟩ := minF_fin_all _ hlne hall
  obtain ⟨M, hmax, hmaxmem, _⟩ := maxF_fin_all _ hlne hall
  have hm : m = c := FVal.fin_injective _ _ (hconst _ hminmem)
  have hM : M = c := FVal.fin_injective _ _ (hconst _ hmaxmem)
  have hgov : govScore tbl r = FVal.nan := by
    unfold govScore
    rw [hc, hmin, hmax, hm, hM]
    rw [FVal.sub_fin_fin, show c - c = (0 : ℝ) by ring]
    simp
  refine ⟨hgov, ?_⟩
  rw [hgov]
  unfold categorize_risk
  rw [if_neg (by simp [FVal.leC]), if_neg (by simp [FVal.leC])]

def nRow : FRow := ⟨1, 0, 2, 3, 4, 5, 6, 7, 8, 9, 10, 11, 12, 13⟩

def nTbl : List FRow := [nRow]

theorem identical_raw_scores_nan_high_witness :
    govScore nTbl nRow = FVal.nan ∧
    categorize_risk (govScore nTbl nRow) = highCat := by
  have hyp : ∀ r1 ∈ nTbl, ∀ r2 ∈ nTbl, rawScore nTbl r1 = rawScore nTbl r2 := by
    intro r1 h1 r2 h2
    simp only [nTbl, List.mem_singleton] at h1 h2
    rw [h1, h2]
  exact identical_raw_scores_nan_high nTbl hyp nRow (by simp [nTbl])

/-! ### Concrete evaluation helpers -/

theorem zscoreVal_const (c : ℚ) (l : List ℚ) (hne : l ≠ [])
    (hall : ∀ x ∈ l, x = c) : zscoreVal c l = FVal.fin 0 := by
  unfold zscoreVal
  by_cases hl : l.length ≤ 1
  · rw [stdF, if_pos hl]
    simp
  · rw [stdF, if_neg hl]
    rw [constant_var l c hne hall, constant_mean l c hne hall]
    simp

theorem z000 : zscoreVal 0 [0, 0, 0] = FVal.fin 0 :=
  zscoreVal_const 0 [0, 0, 0] (by simp) (by simp)

theorem var_012 : sampleVarQ [0, 1, 2] = 1 := by
  norm_num [sampleVarQ, meanQ]

theorem stdF_012 : stdF [0, 1, 2] = FVal.fin 1 := by
  unfold stdF
  rw [if_neg (by norm_num), var_012]
  norm_num

theorem zscoreVal_exp (x : ℚ) : zscoreVal x [0, 1, 2] = FVal.fin ((x : ℝ) - 1) := by
  unfold zscoreVal
  rw [stdF_012, FVal.div_fin_fin_of_ne _ _ (by norm_num)]
  have hm : meanQ [0, 1, 2] = 1 := by norm_num [meanQ]
  rw [hm]
  norm_num

def vRowA : FRow := ⟨1, 0, 0, 0, 0, 0, 0, 0, 0, 0, 0, 0, 0, 0⟩

def vRowB : FRow := ⟨2, 0, 0, 1, 0, 0, 0, 0, 0, 0, 0, 0, 0, 0⟩

def vRowC : FRow := ⟨3, 0, 0, 2, 0, 0, 0, 0, 0, 0, 0, 0, 0, 0⟩

def vTbl : List FRow := [vRowA, vRowB, vRowC]

theorem rv_gap : roleVals vTbl (fun r => r.privilege_usage_gap) 0 = [0, 0, 0] := rfl

theorem rv_ratio : roleVals vTbl (fun r => r.privilege_usage_ratio) 0 = [0, 0, 0] := rfl

theorem rv_conc : roleVals vTbl (fun r => r.resource_access_concentration) 0 = [0, 0, 0] := rfl

theorem rv_exp : roleVals vTbl (fun r => r.export_ratio) 0 = [0, 1, 2] := rfl

theorem rv_ada : roleVals vTbl (fun r => r.avg_daily_access) 0 = [0, 0, 0] := rfl

theorem rv_ur : roleVals vTbl (fun r => r.unique_resources) 0 = [0, 0, 0] := rfl

theorem rv_nap : roleVals vTbl (fun r => r.night_access_pct) 0 = [0, 0, 0] := rfl

theorem rv_asd : roleVals vTbl (fun r => r.avg_session_duration) 0 = [0, 0, 0] := rfl

theorem rv_war : roleVals vTbl (fun r => r.weekend_activity_ratio) 0 = [0, 0, 0] := rfl

theorem rv_atv : roleVals vTbl (fun r => r.access_time_variance) 0 = [0, 0, 0] := rfl

theorem rv_wac : roleVals vTbl (fun r => r.weekly_access_change) 0 = [0, 0, 0] := rfl

theorem rv_ass : roleVals vTbl (fun r => r.access_spike_score) 0 = [0, 0, 0] := rfl

theorem raw_v_eval :
    rawScore vTbl vRowA = FVal.fin (-(3/20)) ∧
    rawScore vTbl vRowB = FVal.fin 0 ∧
    rawScore vTbl vRowC = FVal.fin (3/20) := by
  refine ⟨?_, ?_, ?_⟩ <;>
  · unfold rawScore riskWeights
    simp only [List.foldl_cons, List.foldl_nil, vRowA, vRowB, vRowC]
    rw [rv_gap, rv_ratio, rv_conc, rv_exp, rv_ada, rv_ur, rv_nap, rv_asd,
      rv_war, rv_atv, rv_wac, rv_ass]
    rw [zscoreVal_exp]
    norm_num [z000]

theorem rawList_v :
    rawList vTbl = [rawScore vTbl vRowA, rawScore vTbl vRowB, rawScore vTbl vRowC] := rfl

theorem minF_v : FVal.minF (rawList vTbl) = FVal.fin (-(3/20)) := by
  rw [rawList_v, raw_v_eval.1, raw_v_eval.2.1, raw_v_eval.2.2]
  unfold FVal.minF
  simp only [List.foldl_cons, List.foldl_nil, FVal.min2_nan_left, FVal.min2_fin_fin]
  norm_num [min_def]

theorem maxF_v : FVal.maxF (rawList vTbl) = FVal.fin (3/20) := by
  rw [rawList_v, raw_v_eval.1, raw_v_eval.2.1, raw_v_eval.2.2]
  unfold FVal.maxF
  simp only [List.foldl_cons, List.foldl_nil, FVal.max2_nan_left, FVal.max2_fin_fin]
  norm_num [max_def]

theorem governance_minmax_witness :
    (∃ r1 ∈ vTbl, ∃ r2 ∈ vTbl, rawScore vTbl r1 ≠ rawScore vTbl r2) ∧
    ((∀ r ∈ vTbl, ∃ v : ℝ, govScore vTbl r = FVal.fin v ∧ 0 ≤ v ∧ v ≤ 100) ∧
     (∃ r ∈ vTbl, govScore vTbl r = FVal.fin 0) ∧
     (∃ r ∈ vTbl, govScore vTbl r = FVal.fin 100)) := by
  have hyp : ∃ r1 ∈ vTbl, ∃ r2 ∈ vTbl, rawScore vTbl r1 ≠ rawScore vTbl r2 := by
    refine ⟨vRowA, by simp [vTbl], vRowC, by simp [vTbl], ?_⟩
    rw [raw_v_eval.1, raw_v_eval.2.2]
    intro h
    injection h with h'
    norm_num at h'
  exact ⟨hyp, governance_minmax vTbl hyp⟩

/-! ### Claim C5: the output column contract

Column-level model of the pipeline: each stage is mirrored by the set of
pandas column assignments and drops it performs, in source order.  pandas
assignment appends a new column (or overwrites in place; no stage reassigns
an existing name here), `drop(columns=...)` removes columns. -/

def addCol (cols : List String) (c : String) : List String :=
  if c ∈ cols then cols else cols ++ [c]

def addCols (cols : List String) (cs : List String) : List String :=
  cs.foldl addCol cols

def dropCols (cols : List String) (cs : List String) : List String :=
  cols.filter (fun c => !(cs.contains c))

/-- `features_to_normalize` of `calculate_role_based_zscores`, in source
order. -/
def featureNames : List String :=
  ["avg_daily_access", "export_ratio", "unique_resources", "avg_session_duration",
   "night_access_pct", "weekend_activity_ratio", "access_time_variance",
   "weekly_access_change", "access_spike_score",
   "privilege_usage_gap", "privilege_usage_ratio", "resource_access_concentration"]

/-- `load_and_prepare_data`: derives the five time-part columns. -/
def load_and_prepare_cols (cols : List String) : List String :=
  addCols cols ["hour", "day_of_week", "week", "month", "date"]

/-- `build_all_behavioral_features`: four feature columns. -/
def behavioral_cols (cols : List String) : List String :=
  addCols cols ["avg_daily_access", "export_ratio", "unique_resources", "avg_session_duration"]

/-- `build_all_temporal_features`: the helper flags `is_night` and
`is_weekend` are assigned and never dropped. -/
def temporal_cols (cols : List String) : List String :=
  addCols cols
    ["is_night", "night_access_pct", "is_weekend", "weekend_activity_ratio",
     "access_time_variance"]

/-- `build_all_stability_features`: the spike step drops its helper columns
`spike_threshold` and `is_spike` again. -/
def stability_cols (cols : List String) : List String :=
  dropCols
    (addCols cols
      ["weekly_access_change", "spike_threshold", "is_spike", "access_spike_score"])
    ["spike_threshold", "is_spike"]

/-- `build_all_privilege_intelligence_features`: three feature columns. -/
def privilege_cols (cols : List String) : List String :=
  addCols cols
    ["privilege_usage_gap", "privilege_usage_ratio", "resource_access_concentration"]

/-- `calculate_role_based_zscores`: per feature, the merge adds the role
mean/std columns, the z-score column is assigned, and the mean/std columns
are dropped again. -/
def zscore_stage_cols (cols : List String) : List String :=
  featureNames.foldl
    (fun acc f =>
      dropCols (addCols acc [f ++ "_role_mean", f ++ "_role_std", f ++ "_zscore"])
        [f ++ "_role_mean", f ++ "_role_std"])
    cols

/-- `calculate_governance_risk_score`: the two score columns. -/
def composer_cols (cols : List String) : List String :=
  addCols cols ["raw_risk_score", "governance_risk_score"]

/-- `add_risk_categories`: the category column. -/
def category_cols (cols : List String) : List String :=
  addCols cols ["risk_category"]

/-- The whole pipeline of `run_feature_engineering.main`, at column level. -/
def pipelineCols (cols : List String) : List String :=
  category_cols (composer_cols (zscore_stage_cols (privilege_cols (stability_cols
    (temporal_cols (behavioral_cols (load_and_prepare_cols cols)))))))

/-- The input contract of the cleaned event table. -/
def inputCols : List String :=
  ["user_id", "role", "resource_type", "action", "timestamp", "session_duration",
   "access_volume", "success_flag", "assigned_resource_count",
   "actively_used_resource_count"]

/-- The derived columns the output contract claims, and no others:
five time parts, the 12 features, the 12 z-scores, the two scores, and the
category. -/
def claimedAddedCols : List String :=
  ["hour", "day_of_week", "week", "month", "date"] ++
    featureNames ++ featureNames.map (fun f => f ++ "_zscore") ++
    ["raw_risk_score", "governance_risk_score", "risk_category"]

set_option maxRecDepth 4096 in
theorem output_columns_counterexample :
    "is_night" ∈ pipelineCols inputCols ∧
    "is_night" ∉ inputCols ++ claimedAddedCols ∧
    "is_weekend" ∈ pipelineCols inputCols ∧
    "is_weekend" ∉ inputCols ++ claimedAddedCols := by
  refine ⟨?_, ?_, ?_, ?_⟩ <;> decide

set_option maxRecDepth 4096 in
/-- Claim C5 (amended): the pipeline's output carries every raw input
column unchanged in place, augmented with exactly the claimed derived
columns plus the two temporal helper flags `is_night` and `is_weekend`,
which are assigned by `build_all_temporal_features` and never dropped. -/
theorem output_columns_amended :
    pipelineCols inputCols =
      inputCols ++
        ["hour", "day_of_week", "week", "month", "date",
         "avg_daily_access", "export_ratio", "unique_resources",
         "avg_session_duration", "is_night", "night_access_pct", "is_weekend",
         "weekend_activity_ratio", "access_time_variance",
         "weekly_access_change", "access_spike_score", "privilege_usage_gap",
         "privilege_usage_ratio", "resource_access_concentration",
         "avg_daily_access_zscore", "export_ratio_zscore",
         "unique_resources_zscore", "avg_session_duration_zscore",
         "night_access_pct_zscore", "weekend_activity_ratio_zscore",
         "access_time_variance_zscore", "weekly_access_change_zscore",
         "access_spike_score_zscore", "privilege_usage_gap_zscore",
         "privilege_usage_ratio_zscore", "resource_access_concentration_zscore",
         "raw_risk_score", "governance_risk_score", "risk_category"] := by
  decide

/-! ### Claim C7: monotonicity in `export_ratio`

The spec claims that raising one user's `export_ratio` (all other feature
values of all users fixed) never lowers that user's
`governance_risk_score`.  That is false: the min-max rescale is relative to
the whole dataset, and a role peer's raw score can rise faster than the
changed user's.  Below, raising user 1's export ratio from 13 to 169 lowers
their governance score from 2600/31 (about 83.9) to 6760/81 (about 83.5).
What does hold is monotonicity of the pre-normalization `raw_risk_score`,
proved afterwards. -/

/-- Replace the `export_ratio` field of a row. -/
def setExportRow (x : ℚ) (r : FRow) : FRow :=
  ⟨r.user_id, r.role, r.avg_daily_access, x, r.unique_resources,
   r.avg_session_duration, r.night_access_pct, r.weekend_activity_ratio,
   r.access_time_variance, r.weekly_access_change, r.access_spike_score,
   r.privilege_usage_gap, r.privilege_usage_ratio,
   r.resource_access_concentration⟩

/-- The table in which user `u`'s `export_ratio` is set to `x` and
everything else is unchanged. -/
def setExport (u : ℕ) (x : ℚ) (tbl : List FRow) : List FRow :=
  tbl.map (fun r => if r.user_id = u then setExportRow x r else r)

theorem zscoreVal_eval (x : ℚ) (l : List ℚ) (s : ℚ)
    (hlen : ¬ l.length ≤ 1) (hv : sampleVarQ l = s * s) (hs : 0 < s) :
    zscoreVal x l =
      FVal.fillna 0
        (FVal.div (FVal.fin (((x : ℚ) : ℝ) - ((meanQ l : ℚ) : ℝ)))
          (FVal.fin ((s : ℚ) : ℝ))) := by
  unfold zscoreVal stdF
  rw [if_neg hlen, hv]
  have h1 : ((s * s : ℚ) : ℝ) = ((s : ℚ) : ℝ) ^ 2 := by push_cast; ring
  rw [h1, Real.sqrt_sq (by exact_mod_cast hs.le)]

theorem zfin_eval (x m s : ℚ) (hs : s ≠ 0) :
    FVal.fillna 0
      (FVal.div (FVal.fin (((x : ℚ) : ℝ) - ((m : ℚ) : ℝ)))
        (FVal.fin ((s : ℚ) : ℝ))) =
      FVal.fin ((((x - m) / s : ℚ)) : ℝ) := by
  rw [FVal.div_fin_fin_of_ne _ _ (by exact_mod_cast hs), FVal.fillna_fin]
  congr 1
  push_cast
  ring

def cA (x : ℚ) : FRow := ⟨1, 1, 0, x, 0, 0, 0, 0, 0, 0, 0, 0, 0, 0⟩

def cB : FRow := ⟨2, 1, 0, 0, 0, 0, 0, 0, 0, 0, 0, 0, 0, 0⟩

def cC : FRow := ⟨3, 1, 0, 2, 0, 0, 0, 0, 0, 0, 0, 0, 0, 0⟩

def cD : FRow := ⟨4, 2, 0, 0, 0, 0, 0, 0, 0, 0, 0, 0, 0, 0⟩

def cE : FRow := ⟨5, 2, 0, 0, 0, 0, 0, 0, 0, 0, 0, 0, 0, 0⟩

def cF : FRow := ⟨6, 2, 0, 0, 0, 0, 0, 0, 0, 0, 0, 0, 0, 0⟩

def cG : FRow := ⟨7, 2, 0, 4, 0, 0, 0, 0, 0, 0, 0, 0, 0, 0⟩

def cTbl (x : ℚ) : List FRow := [cA x, cB, cC, cD, cE, cF, cG]

theorem z0000 : zscoreVal 0 [0, 0, 0, 0] = FVal.fin 0 :=
  zscoreVal_const 0 [0, 0, 0, 0] (by simp) (by simp)

theorem raw_c13_eval :
    rawScore (cTbl 13) (cA 13) = FVal.fin ((6/35 : ℚ) : ℝ) ∧
    rawScore (cTbl 13) cB = FVal.fin ((-(3/28) : ℚ) : ℝ) ∧
    rawScore (cTbl 13) cC = FVal.fin ((-(9/140) : ℚ) : ℝ) ∧
    rawScore (cTbl 13) cD = FVal.fin ((-(3/40) : ℚ) : ℝ) ∧
    rawScore (cTbl 13) cE = FVal.fin ((-(3/40) : ℚ) : ℝ) ∧
    rawScore (cTbl 13) cF = FVal.fin ((-(3/40) : ℚ) : ℝ) ∧
    rawScore (cTbl 13) cG = FVal.fin ((9/40 : ℚ) : ℝ) := by
  have hv1 : sampleVarQ [13, 0, 2] = 7 * 7 := by norm_num [sampleVarQ, meanQ]
  have hv2 : sampleVarQ [0, 0, 0, 4] = 2 * 2 := by norm_num [sampleVarQ, meanQ]
  have hm1 : meanQ [13, 0, 2] = 5 := by norm_num [meanQ]
  have hm2 : meanQ [0, 0, 0, 4] = 1 := by norm_num [meanQ]
  have hz1 : ∀ x : ℚ, zscoreVal x [13, 0, 2] = FVal.fin ((((x - 5) / 7 : ℚ)) : ℝ) := by
    intro x
    rw [zscoreVal_eval x _ 7 (by norm_num) hv1 (by norm_num), hm1,
      zfin_eval x 5 7 (by norm_num)]
  have hz2 : ∀ x : ℚ, zscoreVal x [0, 0, 0, 4] = FVal.fin ((((x - 1) / 2 : ℚ)) : ℝ) := by
    intro x
    rw [zscoreVal_eval x _ 2 (by norm_num) hv2 (by norm_num), hm2,
      zfin_eval x 1 2 (by norm_num)]
  refine ⟨?_, ?_, ?_, ?_, ?_, ?_, ?_⟩ <;>
  · unfold rawScore riskWeights
    simp only [List.foldl_cons, List.foldl_nil, cA, cB, cC, cD, cE, cF, cG]
    simp only [
      show roleVals (cTbl 13) (fun r => r.privilege_usage_gap) 1 = [0, 0, 0] from rfl,
      show roleVals (cTbl 13) (fun r => r.privilege_usage_ratio) 1 = [0, 0, 0] from rfl,
      show roleVals (cTbl 13) (fun r => r.resource_access_concentration) 1 = [0, 0, 0] from rfl,
      show roleVals (cTbl 13) (fun r => r.export_ratio) 1 = [13, 0, 2] from rfl,
      show roleVals (cTbl 13) (fun r => r.avg_daily_access) 1 = [0, 0, 0] from rfl,
      show roleVals (cTbl 13) (fun r => r.unique_resources) 1 = [0, 0, 0] from rfl,
      show roleVals (cTbl 13) (fun r => r.night_access_pct) 1 = [0, 0, 0] from rfl,
      show roleVals (cTbl 13) (fun r => r.avg_session_duration) 1 = [0, 0, 0] from rfl,
      show roleVals (cTbl 13) (fun r => r.weekend_activity_ratio) 1 = [0, 0, 0] from rfl,
      show roleVals (cTbl 13) (fun r => r.access_time_variance) 1 = [0, 0, 0] from rfl,
      show roleVals (cTbl 13) (fun r => r.weekly_access_change) 1 = [0, 0, 0] from rfl,
      show roleVals (cTbl 13) (fun r => r.access_spike_score) 1 = [0, 0, 0] from rfl,
      show roleVals (cTbl 13) (fun r => r.privilege_usage_gap) 2 = [0, 0, 0, 0] from rfl,
      show roleVals (cTbl 13) (fun r => r.privilege_usage_ratio) 2 = [0, 0, 0, 0] from rfl,
      show roleVals (cTbl 13) (fun r => r.resource_access_concentration) 2 = [0, 0, 0, 0] from rfl,
      show roleVals (cTbl 13) (fun r => r.export_ratio) 2 = [0, 0, 0, 4] from rfl,
      show roleVals (cTbl 13) (fun r => r.avg_daily_access) 2 = [0, 0, 0, 0] from rfl,
      show roleVals (cTbl 13) (fun r => r.unique_resources) 2 = [0, 0, 0, 0] from rfl,
      show roleVals (cTbl 13) (fun r => r.night_access_pct) 2 = [0, 0, 0, 0] from rfl,
      show roleVals (cTbl 13) (fun r => r.avg_session_duration) 2 = [0, 0, 0, 0] from rfl,
      show roleVals (cTbl 13) (fun r => r.weekend_activity_ratio) 2 = [0, 0, 0, 0] from rfl,
      show roleVals (cTbl 13) (fun r => r.access_time_variance) 2 = [0, 0, 0, 0] from rfl,
      show roleVals (cTbl 13) (fun r => r.weekly_access_change) 2 = [0, 0, 0, 0] from rfl,
      show roleVals (cTbl 13) (fun r => r.access_spike_score) 2 = [0, 0, 0, 0] from rfl]
    simp only [hz1, hz2, z000, z0000, FVal.mul_fin_fin, FVal.add_fin_fin, FVal.fin.injEq]
    push_cast
    norm_num

theorem raw_c169_eval :
    rawScore (cTbl 169) (cA 169) = FVal.fin ((84/485 : ℚ) : ℝ) ∧
    rawScore (cTbl 169) cB = FVal.fin ((-(171/1940) : ℚ) : ℝ) ∧
    rawScore (cTbl 169) cC = FVal.fin ((-(33/388) : ℚ) : ℝ) ∧
    rawScore (cTbl 169) cD = FVal.fin ((-(3/40) : ℚ) : ℝ) ∧
    rawScore (cTbl 169) cE = FVal.fin ((-(3/40) : ℚ) : ℝ) ∧
    rawScore (cTbl 169) cF = FVal.fin ((-(3/40) : ℚ) : ℝ) ∧
    rawScore (cTbl 169) cG = FVal.fin ((9/40 : ℚ) : ℝ) := by
  have hv1 : sampleVarQ [169, 0, 2] = 97 * 97 := by norm_num [sampleVarQ, meanQ]
  have hv2 : sampleVarQ [0, 0, 0, 4] = 2 * 2 := by norm_num [sampleVarQ, meanQ]
  have hm1 : meanQ [169, 0, 2] = 57 := by norm_num [meanQ]
  have hm2 : meanQ [0, 0, 0, 4] = 1 := by norm_num [meanQ]
  have hz1 : ∀ x : ℚ, zscoreVal x [169, 0, 2] = FVal.fin ((((x - 57) / 97 : ℚ)) : ℝ) := by
    intro x
    rw [zscoreVal_eval x _ 97 (by norm_num) hv1 (by norm_num), hm1,
      zfin_eval x 57 97 (by norm_num)]
  have hz2 : ∀ x : ℚ, zscoreVal x [0, 0, 0, 4] = FVal.fin ((((x - 1) / 2 : ℚ)) : ℝ) := by
    intro x
    rw [zscoreVal_eval x _ 2 (by norm_num) hv2 (by norm_num), hm2,
      zfin_eval x 1 2 (by norm_num)]
  refine ⟨?_, ?_, ?_, ?_, ?_, ?_, ?_⟩ <;>
  · unfold rawScore riskWeights
    simp only [List.foldl_cons, List.foldl_nil, cA, cB, cC, cD, cE, cF, cG]
    simp only [
      show roleVals (cTbl 169) (fun r => r.privilege_usage_gap) 1 = [0, 0, 0] from rfl,
      show roleVals (cTbl 169) (fun r => r.privilege_usage_ratio) 1 = [0, 0, 0] from rfl,
      show roleVals (cTbl 169) (fun r => r.resource_access_concentration) 1 = [0, 0, 0] from rfl,
      show roleVals (cTbl 169) (fun r => r.export_ratio) 1 = [169, 0, 2] from rfl,
      show roleVals (cTbl 169) (fun r => r.avg_daily_access) 1 = [0, 0, 0] from rfl,
      show roleVals (cTbl 169) (fun r => r.unique_resources) 1 = [0, 0, 0] from rfl,
      show roleVals (cTbl 169) (fun r => r.night_access_pct) 1 = [0, 0, 0] from rfl,
      show roleVals (cTbl 169) (fun r => r.avg_session_duration) 1 = [0, 0, 0] from rfl,
      show roleVals (cTbl 169) (fun r => r.weekend_activity_ratio) 1 = [0, 0, 0] from rfl,
      show roleVals (cTbl 169) (fun r => r.access_time_variance) 1 = [0, 0, 0] from rfl,
      show roleVals (cTbl 169) (fun r => r.weekly_access_change) 1 = [0, 0, 0] from rfl,
      show roleVals (cTbl 169) (fun r => r.access_spike_score) 1 = [0, 0, 0] from rfl,
      show roleVals (cTbl 169) (fun r => r.privilege_usage_gap) 2 = [0, 0, 0, 0] from rfl,
      show roleVals (cTbl 169) (fun r => r.privilege_usage_ratio) 2 = [0, 0, 0, 0] from rfl,
      show roleVals (cTbl 169) (fun r => r.resource_access_concentration) 2 = [0, 0, 0, 0] from rfl,
      show roleVals (cTbl 169) (fun r => r.export_ratio) 2 = [0, 0, 0, 4] from rfl,
      show roleVals (cTbl 169) (fun r => r.avg_daily_access) 2 = [0, 0, 0, 0] from rfl,
      show roleVals (cTbl 169) (fun r => r.unique_resources) 2 = [0, 0, 0, 0] from rfl,
      show roleVals (cTbl 169) (fun r => r.night_access_pct) 2 = [0, 0, 0, 0] from rfl,
      show roleVals (cTbl 169) (fun r => r.avg_session_duration) 2 = [0, 0, 0, 0] from rfl,
      show roleVals (cTbl 169) (fun r => r.weekend_activity_ratio) 2 = [0, 0, 0, 0] from rfl,
      show roleVals (cTbl 169) (fun r => r.access_time_variance) 2 = [0, 0, 0, 0] from rfl,
      show roleVals (cTbl 169) (fun r => r.weekly_access_change) 2 = [0, 0, 0, 0] from rfl,
      show roleVals (cTbl 169) (fun r => r.access_spike_score) 2 = [0, 0, 0, 0] from rfl]
    simp only [hz1, hz2, z000, z0000, FVal.mul_fin_fin, FVal.add_fin_fin, FVal.fin.injEq]
    push_cast
    norm_num

theorem minmax_c13 :
    FVal.minF (rawList (cTbl 13)) = FVal.fin ((-(3/28) : ℚ) : ℝ) ∧
    FVal.maxF (rawList (cTbl 13)) = FVal.fin ((9/40 : ℚ) : ℝ) := by
  have h : rawList (cTbl 13) = [rawScore (cTbl 13) (cA 13), rawScore (cTbl 13) cB,
      rawScore (cTbl 13) cC, rawScore (cTbl 13) cD, rawScore (cTbl 13) cE,
      rawScore (cTbl 13) cF, rawScore (cTbl 13) cG] := rfl
  obtain ⟨h1, h2, h3, h4, h5, h6, h7⟩ := raw_c13_eval
  constructor <;>
  · rw [h, h1, h2, h3, h4, h5, h6, h7]
    simp only [FVal.minF, FVal.maxF, List.foldl_cons, List.foldl_nil,
      FVal.min2_nan_left, FVal.min2_fin_fin,
      FVal.max2_nan_left, FVal.max2_fin_fin, FVal.fin.injEq]
    push_cast
    norm_num [min_def, max_def]

theorem minmax_c169 :
    FVal.minF (rawList (cTbl 169)) = FVal.fin ((-(171/1940) : ℚ) : ℝ) ∧
    FVal.maxF (rawList (cTbl 169)) = FVal.fin ((9/40 : ℚ) : ℝ) := by
  have h : rawList (cTbl 169) = [rawScore (cTbl 169) (cA 169), rawScore (cTbl 169) cB,
      rawScore (cTbl 169) cC, rawScore (cTbl 169) cD, rawScore (cTbl 169) cE,
      rawScore (cTbl 169) cF, rawScore (cTbl 169) cG] := rfl
  obtain ⟨h1, h2, h3, h4, h5, h6, h7⟩ := raw_c169_eval
  constructor <;>
  · rw [h, h1, h2, h3, h4, h5, h6, h7]
    simp only [FVal.minF, FVal.maxF, List.foldl_cons, List.foldl_nil,
      FVal.min2_nan_left, FVal.min2_fin_fin,
      FVal.max2_nan_left, FVal.max2_fin_fin, FVal.fin.injEq]
    push_cast
    norm_num [min_def, max_def]

theorem gov_c13_A : govScore (cTbl 13) (cA 13) = FVal.fin (2600/31) := by
  unfold govScore
  rw [raw_c13_eval.1, minmax_c13.1, minmax_c13.2]
  simp only [FVal.sub_fin_fin]
  rw [FVal.div_fin_fin_of_ne _ _ (by push_cast; norm_num)]
  simp only [FVal.mul_fin_fin, FVal.clip_fin, FVal.fin.injEq]
  push_cast
  norm_num [min_def, max_def]

theorem gov_c169_A : govScore (cTbl 169) (cA 169) = FVal.fin (6760/81) := by
  unfold govScore
  rw [raw_c169_eval.1, minmax_c169.1, minmax_c169.2]
  simp only [FVal.sub_fin_fin]
  rw [FVal.div_fin_fin_of_ne _ _ (by push_cast; norm_num)]
  simp only [FVal.mul_fin_fin, FVal.clip_fin, FVal.fin.injEq]
  push_cast
  norm_num [min_def, max_def]

/-- Claim C7 counterexample: two runs whose inputs differ only in user 1's
`export_ratio` feature value (13 versus 169; every other feature of every
user identical), where the run with the larger export ratio produces the
strictly smaller governance risk score for that user (2600/31 ≈ 83.9 drops
to 6760/81 ≈ 83.5). -/
theorem export_monotonicity_counterexample :
    cTbl 169 = setExport 1 169 (cTbl 13) ∧
    (13 : ℚ) < 169 ∧
    govScore (cTbl 13) (cA 13) = FVal.fin (2600/31) ∧
    govScore (cTbl 169) (cA 169) = FVal.fin (6760/81) ∧
    (6760/81 : ℝ) < 2600/31 :=
  ⟨rfl, by norm_num, gov_c13_A, gov_c169_A, by norm_num⟩

/-! ### Moments of a role column under an export update -/

theorem meanQ_moments (l : List ℚ) (n : ℕ) (M1 : ℚ)
    (hlen : l.length = n) (hsum : l.sum = M1) : meanQ l = M1 / (n : ℚ) := by
  rw [meanQ, hlen, hsum]

theorem sampleVarQ_moments (l : List ℚ) (n : ℕ) (M1 M2 : ℚ) (hn : 1 ≤ n)
    (hlen : l.length = n) (hsum : l.sum = M1)
    (hsq : (l.map (fun y => y ^ 2)).sum = M2) :
    sampleVarQ l = (M2 - M1 ^ 2 / (n : ℚ)) / ((n : ℚ) - 1) := by
  have hn0 : ((n : ℚ)) ≠ 0 := by
    have : 0 < n := hn
    positivity
  rw [sampleVarQ, sum_map_sq_sub, hlen, hsum, hsq, meanQ, hlen, hsum]
  congr 1
  field_simp
  ring

theorem update_sum (G : List FRow) (u : ℕ) (x : ℚ) (g : ℚ → ℚ) :
    ((G.map (fun r => if r.user_id = u then x else r.export_ratio)).map g).sum =
      ((G.filter (fun r => r.user_id = u)).length : ℚ) * g x +
        ((G.filter (fun r => ¬ r.user_id = u)).map
          (fun r => g r.export_ratio)).sum := by
  induction G with
  | nil => simp
  | cons a t ih =>
      by_cases h : a.user_id = u
      · simp only [List.map_cons, List.sum_cons, List.filter_cons, h, if_pos,
          decide_True, not_true, decide_False, List.length_cons, ih]
        push_cast
        ring
      · simp only [List.map_cons, List.sum_cons, List.filter_cons, h, if_neg,
          decide_False, not_false_iff, decide_True, List.map_cons, List.sum_cons, ih]
        simp [h]
        ring

theorem filter_length_split (G : List FRow) (u : ℕ) :
    (G.filter (fun r => r.user_id = u)).length +
      (G.filter (fun r => ¬ r.user_id = u)).length = G.length := by
  induction G with
  | nil => rfl
  | cons a t ih =>
      by_cases h : a.user_id = u <;> simp [List.filter_cons, h, decide_not] at ih ⊢ <;>
        omega

theorem sq_sum_le (C : List ℚ) :
    (C.sum) ^ 2 ≤ (C.length : ℚ) * ((C.map (fun y => y ^ 2)).sum) := by
  rcases eq_or_ne C [] with rfl | hne
  · simp
  · have hlen : 0 < (C.length : ℚ) := by
      have := List.length_pos.mpr hne
      exact_mod_cast this
    have h0 : 0 ≤ (C.map (fun y => (y - meanQ C) ^ 2)).sum := by
      apply List.sum_nonneg
      intro y hy
      rcases List.mem_map.mp hy with ⟨z, _, rfl⟩
      positivity
    rw [sum_map_sq_sub] at h0
    rw [meanQ] at h0
    have hexp : (C.map (fun x => x ^ 2)).sum - 2 * (C.sum / (C.length : ℚ)) * C.sum +
        (C.length : ℚ) * (C.sum / (C.length : ℚ)) ^ 2 =
        (C.map (fun x => x ^ 2)).sum - C.sum ^ 2 / (C.length : ℚ) := by
      field_simp
      ring
    rw [hexp] at h0
    have h1 : C.sum ^ 2 / (C.length : ℚ) ≤ (C.map (fun x => x ^ 2)).sum := by linarith
    calc C.sum ^ 2 = (C.sum ^ 2 / (C.length : ℚ)) * (C.length : ℚ) := by
          field_simp
      _ ≤ (C.map (fun x => x ^ 2)).sum * (C.length : ℚ) := by
          exact mul_le_mul_of_nonneg_right h1 hlen.le
      _ = (C.length : ℚ) * (C.map (fun y => y ^ 2)).sum := by ring

/-! ### The z-score of the modified value, in closed form -/

theorem ratio_sqrt_mono (c β A d u₁ u₂ : ℝ) (hc : 0 ≤ c) (hβ : 0 ≤ β)
    (hA : 0 ≤ A) (hd : 0 < d)
    (h1 : 0 < β * u₁ ^ 2 + A) (h2 : 0 < β * u₂ ^ 2 + A) (h : u₁ ≤ u₂) :
    c * u₁ / Real.sqrt ((β * u₁ ^ 2 + A) / d) ≤
      c * u₂ / Real.sqrt ((β * u₂ ^ 2 + A) / d) := by
  have hD₁p : 0 < Real.sqrt ((β * u₁ ^ 2 + A) / d) :=
    Real.sqrt_pos.mpr (by positivity)
  have hD₂p : 0 < Real.sqrt ((β * u₂ ^ 2 + A) / d) :=
    Real.sqrt_pos.mpr (by positivity)
  rw [div_le_div_iff hD₁p hD₂p]
  rcases le_or_lt 0 u₁ with hu₁ | hu₁
  · have hu₂ : 0 ≤ u₂ := le_trans hu₁ h
    have e₁ : u₁ * Real.sqrt ((β * u₂ ^ 2 + A) / d) =
        Real.sqrt (u₁ ^ 2 * ((β * u₂ ^ 2 + A) / d)) := by
      rw [Real.sqrt_mul (by positivity), Real.sqrt_sq hu₁]
    have e₂ : u₂ * Real.sqrt ((β * u₁ ^ 2 + A) / d) =
        Real.sqrt (u₂ ^ 2 * ((β * u₁ ^ 2 + A) / d)) := by
      rw [Real.sqrt_mul (by positivity), Real.sqrt_sq hu₂]
    rw [mul_assoc, mul_assoc, e₁, e₂]
    apply mul_le_mul_of_nonneg_left _ hc
    apply Real.sqrt_le_sqrt
    have hsq : u₁ ^ 2 ≤ u₂ ^ 2 := pow_le_pow_left hu₁ h 2
    have key : u₁ ^ 2 * (β * u₂ ^ 2 + A) ≤ u₂ ^ 2 * (β * u₁ ^ 2 + A) := by
      nlinarith
    calc u₁ ^ 2 * ((β * u₂ ^ 2 + A) / d) = u₁ ^ 2 * (β * u₂ ^ 2 + A) / d := by
          ring
      _ ≤ u₂ ^ 2 * (β * u₁ ^ 2 + A) / d := (div_le_div_right hd).mpr key
      _ = u₂ ^ 2 * ((β * u₁ ^ 2 + A) / d) := by ring
  · rcases le_or_lt 0 u₂ with hu₂ | hu₂
    · have hL : c * u₁ * Real.sqrt ((β * u₂ ^ 2 + A) / d) ≤ 0 := by
        apply mul_nonpos_of_nonpos_of_nonneg
        · exact mul_nonpos_of_nonneg_of_nonpos hc hu₁.le
        · exact hD₂p.le
      have hR : 0 ≤ c * u₂ * Real.sqrt ((β * u₁ ^ 2 + A) / d) := by
        apply mul_nonneg (mul_nonneg hc hu₂) hD₁p.le
      linarith
    · have h1' : (0 : ℝ) ≤ -u₁ := by linarith
      have h2' : (0 : ℝ) ≤ -u₂ := by linarith
      have hsw : -u₂ ≤ -u₁ := by linarith
      have e₁ : (-u₂) * Real.sqrt ((β * u₁ ^ 2 + A) / d) =
          Real.sqrt ((-u₂) ^ 2 * ((β * u₁ ^ 2 + A) / d)) := by
        rw [Real.sqrt_mul (by positivity), Real.sqrt_sq h2']
      have e₂ : (-u₁) * Real.sqrt ((β * u₂ ^ 2 + A) / d) =
          Real.sqrt ((-u₁) ^ 2 * ((β * u₂ ^ 2 + A) / d)) := by
        rw [Real.sqrt_mul (by positivity), Real.sqrt_sq h1']
      have hsq : (-u₂) ^ 2 ≤ (-u₁) ^ 2 := pow_le_pow_left h2' hsw 2
      have key : (-u₂) ^ 2 * (β * u₁ ^ 2 + A) ≤ (-u₁) ^ 2 * (β * u₂ ^ 2 + A) := by
        nlinarith
      have main : c * ((-u₂) * Real.sqrt ((β * u₁ ^ 2 + A) / d)) ≤
          c * ((-u₁) * Real.sqrt ((β * u₂ ^ 2 + A) / d)) := by
        apply mul_le_mul_of_nonneg_left _ hc
        rw [e₁, e₂]
        apply Real.sqrt_le_sqrt
        calc (-u₂) ^ 2 * ((β * u₁ ^ 2 + A) / d) = (-u₂) ^ 2 * (β * u₁ ^ 2 + A) / d := by
              ring
          _ ≤ (-u₁) ^ 2 * (β * u₂ ^ 2 + A) / d := (div_le_div_right hd).mpr key
          _ = (-u₁) ^ 2 * ((β * u₂ ^ 2 + A) / d) := by ring
      nlinarith [main]

open Classical in
/-- Closed form of the z-score of the modified user's export value `x`
within a role group consisting of `k` copies of `x` (the user's rows) and
fixed peer rows with export sum `S`, export square sum `Q` and count `p`. -/
noncomputable def zMix (k p : ℕ) (S Q : ℚ) (x : ℚ) : ℝ :=
  if p = 0 then 0
  else if Q - S ^ 2 / p = 0 ∧ x = S / p then 0
  else ((p : ℝ) / ((k : ℝ) + p)) * ((x : ℝ) - (S : ℝ) / p) /
    Real.sqrt ((((k : ℝ) * p / ((k : ℝ) + p)) * ((x : ℝ) - (S : ℝ) / p) ^ 2 +
      ((Q : ℝ) - (S : ℝ) ^ 2 / p)) / ((k : ℝ) + p - 1))

theorem var_decomp (k p x S Q : ℚ) (hp : 0 < p) (hn : 0 < k + p) :
    (k * x ^ 2 + Q - (k * x + S) ^ 2 / (k + p)) / ((k + p) - 1) =
      ((k * p / (k + p)) * (x - S / p) ^ 2 + (Q - S ^ 2 / p)) / ((k + p) - 1) := by
  congr 1
  field_simp
  ring

theorem zscoreVal_eq_zMix (x : ℚ) (l : List ℚ) (k p : ℕ) (S Q : ℚ)
    (hk : 1 ≤ k)
    (hQS : S ^ 2 ≤ (p : ℚ) * Q) (hp0 : p = 0 → S = 0 ∧ Q = 0)
    (hlen : l.length = k + p) (hsum : l.sum = (k : ℚ) * x + S)
    (hsq : (l.map (fun y => y ^ 2)).sum = (k : ℚ) * x ^ 2 + Q) :
    zscoreVal x l = FVal.fin (zMix k p S Q x) := by
  by_cases hp : p = 0
  · obtain ⟨hS, hQ⟩ := hp0 hp
    subst hS hQ hp
    rw [zMix, if_pos rfl]
    by_cases hk1 : k = 1
    · unfold zscoreVal stdF
      rw [if_pos (by omega)]
      simp
    · have hk2 : 2 ≤ k := by omega
      have hlen2 : ¬ l.length ≤ 1 := by omega
      have hmean : meanQ l = x := by
        rw [meanQ_moments l (k + 0) ((k : ℚ) * x + 0) hlen hsum]
        have hkq : ((k : ℚ)) ≠ 0 := by positivity
        push_cast
        rw [add_zero, add_zero, mul_comm, mul_div_assoc, div_self hkq, mul_one]
      have hvar : sampleVarQ l = 0 := by
        rw [sampleVarQ_moments l (k + 0) ((k : ℚ) * x + 0)
          ((k : ℚ) * x ^ 2 + 0) (by omega) hlen hsum hsq]
        have hkq : ((k : ℚ)) ≠ 0 := by positivity
        push_cast
        field_simp
        left
        ring
      unfold zscoreVal stdF
      rw [if_neg hlen2, hvar, hmean]
      norm_num
  · have hp1 : 1 ≤ p := Nat.one_le_iff_ne_zero.mpr hp
    have hn2 : 2 ≤ k + p := by omega
    have hlen' : ¬ l.length ≤ 1 := by omega
    have hpq : (0 : ℚ) < (p : ℚ) := by exact_mod_cast hp1
    have hnq : (0 : ℚ) < (k : ℚ) + (p : ℚ) := by positivity
    have hA : (0 : ℚ) ≤ Q - S ^ 2 / p := by
      rw [sub_nonneg, div_le_iff hpq]
      linarith [hQS]
    have hmean := meanQ_moments l (k + p) ((k : ℚ) * x + S) hlen hsum
    have hvar := sampleVarQ_moments l (k + p) ((k : ℚ) * x + S)
      ((k : ℚ) * x ^ 2 + Q) (by omega) hlen hsum hsq
    have hvar_id : sampleVarQ l =
        (((k : ℚ) * p / ((k : ℚ) + p)) * (x - S / p) ^ 2 + (Q - S ^ 2 / p)) /
          (((k : ℚ) + p) - 1) := by
      rw [hvar]
      push_cast
      exact var_decomp (k : ℚ) (p : ℚ) x S Q hpq hnq
    have hq : x - meanQ l = ((p : ℚ) / ((k : ℚ) + p)) * (x - S / p) := by
      rw [hmean]
      push_cast
      field_simp
      ring
    by_cases hvz : sampleVarQ l = 0
    · have h0 : ((k : ℚ) * p / ((k : ℚ) + p)) * (x - S / p) ^ 2 + (Q - S ^ 2 / p) = 0 := by
        rw [hvar_id] at hvz
        rcases div_eq_zero_iff.mp hvz with h | h
        · exact h
        · exfalso
          have : (2 : ℚ) ≤ (k : ℚ) + p := by exact_mod_cast hn2
          rw [sub_eq_zero] at h
          linarith
      have hterm1 : (0 : ℚ) ≤ ((k : ℚ) * p / ((k : ℚ) + p)) * (x - S / p) ^ 2 := by
        positivity
      have hA0 : Q - S ^ 2 / p = 0 := by linarith
      have hu0 : x - S / p = 0 := by
        have hb : ((k : ℚ) * p / ((k : ℚ) + p)) * (x - S / p) ^ 2 = 0 := by linarith
        have hcoef : (0 : ℚ) < (k : ℚ) * p / ((k : ℚ) + p) := by
          have hkq : (0 : ℚ) < (k : ℚ) := by exact_mod_cast hk
          positivity
        have := (mul_eq_zero.mp hb).resolve_left (ne_of_gt hcoef)
        exact pow_eq_zero_iff (n := 2) (by norm_num) |>.mp this
      rw [zMix, if_neg hp, if_pos ⟨hA0, by linarith [sub_eq_zero.mp hu0]⟩]
      unfold zscoreVal stdF
      rw [if_neg hlen', hvz]
      have hnum : ((x : ℚ) : ℝ) - ((meanQ l : ℚ) : ℝ) = 0 := by
        have : x - meanQ l = 0 := by
          rw [hq, hu0]
          ring
        have := sub_eq_zero.mp this
        rw [this]
        ring
      rw [hnum]
      norm_num
    · have hvpos : (0 : ℚ) < sampleVarQ l :=
        lt_of_le_of_ne (sampleVarQ_nonneg l (by omega)) (Ne.symm hvz)
      have hsne : Real.sqrt ((sampleVarQ l : ℚ) : ℝ) ≠ 0 := by
        have : (0 : ℝ) < ((sampleVarQ l : ℚ) : ℝ) := by exact_mod_cast hvpos
        have := Real.sqrt_pos.mpr this
        linarith
      have hcond : ¬ (Q - S ^ 2 / p = 0 ∧ x = S / p) := by
        rintro ⟨hA0, hxm⟩
        apply hvz
        rw [hvar_id, hA0, sub_eq_zero.mpr hxm]
        ring
      unfold zscoreVal stdF
      rw [if_neg hlen', FVal.div_fin_fin_of_ne _ _ hsne, FVal.fillna_fin]
      rw [zMix, if_neg hp, if_neg hcond]
      have hnumR : ((x : ℚ) : ℝ) - ((meanQ l : ℚ) : ℝ) =
          ((p : ℝ) / ((k : ℝ) + p)) * ((x : ℝ) - (S : ℝ) / p) := by
        have h1 : ((x : ℚ) : ℝ) - ((meanQ l : ℚ) : ℝ) = ((x - meanQ l : ℚ) : ℝ) := by
          push_cast
          ring
        rw [h1, hq]
        push_cast
        ring
      have hvarR : ((sampleVarQ l : ℚ) : ℝ) =
          (((k : ℝ) * p / ((k : ℝ) + p)) * ((x : ℝ) - (S : ℝ) / p) ^ 2 +
            ((Q : ℝ) - (S : ℝ) ^ 2 / p)) / (((k : ℝ) + p) - 1) := by
        rw [hvar_id]
        push_cast
        ring
      rw [hnumR, hvarR]

theorem zMix_mono (k p : ℕ) (S Q : ℚ) (hk : 1 ≤ k)
    (hQS : S ^ 2 ≤ (p : ℚ) * Q) (x₁ x₂ : ℚ) (hx : x₁ ≤ x₂) :
    zMix k p S Q x₁ ≤ zMix k p S Q x₂ := by
  by_cases hp : p = 0
  · rw [zMix, zMix, if_pos hp, if_pos hp]
  · have hp1 : 1 ≤ p := Nat.one_le_iff_ne_zero.mpr hp
    have hpq : (0 : ℚ) < (p : ℚ) := by exact_mod_cast hp1
    have hAq : (0 : ℚ) ≤ Q - S ^ 2 / p := by
      rw [sub_nonneg, div_le_iff hpq]
      linarith [hQS]
    have hpR : (0 : ℝ) < (p : ℝ) := by exact_mod_cast hp1
    have hkR : (0 : ℝ) < (k : ℝ) := by exact_mod_cast hk
    have hnR : (0 : ℝ) < (k : ℝ) + p := by positivity
    have hdR : (0 : ℝ) < (k : ℝ) + p - 1 := by
      have h1 : (1 : ℝ) ≤ (k : ℝ) := by exact_mod_cast hk
      have h2 : (1 : ℝ) ≤ (p : ℝ) := by exact_mod_cast hp1
      linarith
    have hAR : (0 : ℝ) ≤ (Q : ℝ) - (S : ℝ) ^ 2 / p := by
      have : ((Q - S ^ 2 / p : ℚ) : ℝ) = (Q : ℝ) - (S : ℝ) ^ 2 / p := by
        push_cast
        ring
      rw [← this]
      exact_mod_cast hAq
    have hxR : ((x₁ : ℝ) - (S : ℝ) / p) ≤ ((x₂ : ℝ) - (S : ℝ) / p) := by
      have : (x₁ : ℝ) ≤ (x₂ : ℝ) := by exact_mod_cast hx
      linarith
    rw [zMix, zMix, if_neg hp, if_neg hp]
    by_cases h1 : Q - S ^ 2 / p = 0 ∧ x₁ = S / p <;>
      by_cases h2 : Q - S ^ 2 / p = 0 ∧ x₂ = S / p
    · rw [if_pos h1, if_pos h2]
    · rw [if_pos h1, if_neg h2]
      have hu1 : (x₁ : ℝ) - (S : ℝ) / p = 0 := by
        have : ((x₁ : ℚ)) = S / p := h1.2
        have hc : ((x₁ : ℚ) : ℝ) = ((S / p : ℚ) : ℝ) := by exact_mod_cast this
        rw [hc]
        push_cast
        ring
      have hu2 : (0 : ℝ) ≤ (x₂ : ℝ) - (S : ℝ) / p := by
        rw [← hu1]
        exact hxR
      apply div_nonneg
      · apply mul_nonneg (by positivity) hu2
      · exact Real.sqrt_nonneg _
    · rw [if_neg h1, if_pos h2]
      have hu2 : (x₂ : ℝ) - (S : ℝ) / p = 0 := by
        have : ((x₂ : ℚ)) = S / p := h2.2
        have hc : ((x₂ : ℚ) : ℝ) = ((S / p : ℚ) : ℝ) := by exact_mod_cast this
        rw [hc]
        push_cast
        ring
      have hu1 : (x₁ : ℝ) - (S : ℝ) / p ≤ 0 := by
        rw [← hu2]
        exact hxR
      apply div_nonpos_of_nonpos_of_nonneg
      · exact mul_nonpos_of_nonneg_of_nonpos (by positivity) hu1
      · exact Real.sqrt_nonneg _
    · rw [if_neg h1, if_neg h2]
      have hAornot : ∀ (x : ℚ), ¬ (Q - S ^ 2 / p = 0 ∧ x = S / p) →
          (0 : ℝ) < ((k : ℝ) * p / ((k : ℝ) + p)) * ((x : ℝ) - (S : ℝ) / p) ^ 2 +
            ((Q : ℝ) - (S : ℝ) ^ 2 / p) := by
        intro x hcond
        rcases eq_or_lt_of_le hAR with hA0 | hA0
        · have hAq0 : Q - S ^ 2 / p = 0 := by
            have : ((Q - S ^ 2 / p : ℚ) : ℝ) = (Q : ℝ) - (S : ℝ) ^ 2 / p := by
              push_cast
              ring
            have h' : ((Q - S ^ 2 / p : ℚ) : ℝ) = 0 := by rw [this, ← hA0]
            exact_mod_cast h'
          have hxne : x ≠ S / p := fun hc => hcond ⟨hAq0, hc⟩
          have huR : (x : ℝ) - (S : ℝ) / p ≠ 0 := by
            intro hc
            apply hxne
            have : ((x : ℚ) : ℝ) = ((S / p : ℚ) : ℝ) := by
              push_cast
              linarith
            exact_mod_cast this
          have : (0 : ℝ) < ((k : ℝ) * p / ((k : ℝ) + p)) * ((x : ℝ) - (S : ℝ) / p) ^ 2 := by
            positivity
          linarith
        · have : (0 : ℝ) ≤ ((k : ℝ) * p / ((k : ℝ) + p)) * ((x : ℝ) - (S : ℝ) / p) ^ 2 := by
            positivity
          linarith
      exact ratio_sqrt_mono ((p : ℝ) / ((k : ℝ) + p)) ((k : ℝ) * p / ((k : ℝ) + p))
        ((Q : ℝ) - (S : ℝ) ^ 2 / p) ((k : ℝ) + p - 1) _ _
        (by positivity) (by positivity) hAR hdR (hAornot x₁ h1) (hAornot x₂ h2) hxR

theorem setExportRow_role (x : ℚ) (r : FRow) : (setExportRow x r).role = r.role := rfl

theorem roleVals_setExport_exp (tbl : List FRow) (u : ℕ) (x : ℚ) (ρ : ℕ) :
    roleVals (setExport u x tbl) (fun r => r.export_ratio) ρ =
      (tbl.filter (fun r => r.role = ρ)).map
        (fun r => if r.user_id = u then x else r.export_ratio) := by
  induction tbl with
  | nil => rfl
  | cons a t ih =>
      unfold roleVals setExport at ih ⊢
      simp only [List.map_cons, List.filter_cons]
      have hrole : (if a.user_id = u then setExportRow x a else a).role = a.role := by
        by_cases hu : a.user_id = u <;> simp [hu, setExportRow]
      have hexp : (fun r => r.export_ratio) (if a.user_id = u then setExportRow x a else a) =
          if a.user_id = u then x else a.export_ratio := by
        by_cases hu : a.user_id = u <;> simp [hu, setExportRow]
      by_cases hρ : a.role = ρ
      · simp only [hrole, hρ, decide_True, List.filter_cons, if_pos, List.map_cons]
        rw [← ih]
        simp [hexp]
      · simpa [hrole, hρ] using ih

theorem roleVals_setExport_other (tbl : List FRow) (u : ℕ) (x : ℚ) (ρ : ℕ)
    (sel : FRow → ℚ) (hsel : ∀ r, sel (setExportRow x r) = sel r) :
    roleVals (setExport u x tbl) sel ρ = roleVals tbl sel ρ := by
  induction tbl with
  | nil => rfl
  | cons a t ih =>
      unfold roleVals setExport at ih ⊢
      simp only [List.map_cons, List.filter_cons]
      have hrole : (if a.user_id = u then setExportRow x a else a).role = a.role := by
        by_cases hu : a.user_id = u <;> simp [hu, setExportRow]
      have hval : sel (if a.user_id = u then setExportRow x a else a) = sel a := by
        by_cases hu : a.user_id = u <;> simp [hu, hsel]
      by_cases hρ : a.role = ρ
      · simp only [hrole, hρ, decide_True, if_pos, List.map_cons]
        rw [← ih]
        simp [hval]
      · simpa [hrole, hρ] using ih

theorem export_hQS (G : List FRow) (u : ℕ) :
    (((G.filter (fun r => ¬ r.user_id = u)).map (fun r => r.export_ratio)).sum) ^ 2 ≤
      ((G.filter (fun r => ¬ r.user_id = u)).length : ℚ) *
        ((G.filter (fun r => ¬ r.user_id = u)).map
          (fun r => r.export_ratio ^ 2)).sum := by
  have h := sq_sum_le ((G.filter (fun r => ¬ r.user_id = u)).map (fun r => r.export_ratio))
  simpa [List.map_map, Function.comp] using h


/-- The role peers of user `u` in role `ρ` (the unchanged rows). -/
def peerRows (tbl : List FRow) (u ρ : ℕ) : List FRow :=
  (tbl.filter (fun r => r.role = ρ)).filter (fun r => ¬ r.user_id = u)

/-- The number of rows of user `u` in role `ρ`. -/
def ownCount (tbl : List FRow) (u ρ : ℕ) : ℕ :=
  ((tbl.filter (fun r => r.role = ρ)).filter (fun r => r.user_id = u)).length

/-- Closed form of the export z-score of user `u`'s rows when their export
ratio is set to `x`. -/
noncomputable def zExport (tbl : List FRow) (u ρ : ℕ) (x : ℚ) : ℝ :=
  zMix (ownCount tbl u ρ) ((peerRows tbl u ρ).length)
    (((peerRows tbl u ρ).map (fun r => r.export_ratio)).sum)
    (((peerRows tbl u ρ).map (fun r => r.export_ratio ^ 2)).sum) x

theorem zscore_export_eq (tbl : List FRow) (u : ℕ) (ρ : ℕ) (x : ℚ)
    (hk : 1 ≤ ownCount tbl u ρ) :
    zscoreVal x ((tbl.filter (fun r => r.role = ρ)).map
        (fun r => if r.user_id = u then x else r.export_ratio)) =
      FVal.fin (zExport tbl u ρ x) := by
  unfold ownCount at hk
  unfold zExport ownCount peerRows
  apply zscoreVal_eq_zMix x _ _ _ _ _ hk
  · exact export_hQS _ u
  · intro hp
    rw [List.length_eq_zero] at hp
    rw [hp]
    simp
  · rw [List.length_map, ← filter_length_split (tbl.filter (fun r => r.role = ρ)) u]
  · have h := update_sum (tbl.filter (fun r => r.role = ρ)) u x (fun y => y)
    simpa using h
  · have h := update_sum (tbl.filter (fun r => r.role = ρ)) u x (fun y => y ^ 2)
    simpa using h

theorem zExport_mono (tbl : List FRow) (u ρ : ℕ) (hk : 1 ≤ ownCount tbl u ρ)
    (x₁ x₂ : ℚ) (hx : x₁ ≤ x₂) :
    zExport tbl u ρ x₁ ≤ zExport tbl u ρ x₂ := by
  unfold zExport peerRows
  exact zMix_mono _ _ _ _ hk
    (export_hQS (tbl.filter (fun r => r.role = ρ)) u) x₁ x₂ hx

/-- Claim C7 (amended): for any two runs on feature tables that differ only
in one user's `export_ratio` value (all of that user's rows change from
`x₁` to `x₂ ≥ x₁`; all other feature values of all users fixed), the run
with the larger export ratio does not produce a smaller `raw_risk_score`
for that user.  The original claim about the dataset-relative min-max
rescaled `governance_risk_score` is false (see the counterexample): the
monotonicity survives only up to the raw weighted score. -/
theorem export_ratio_raw_monotone (tbl : List FRow) (u : ℕ) (r : FRow)
    (hr : r ∈ tbl) (hu : r.user_id = u) (x₁ x₂ : ℚ) (hx : x₁ ≤ x₂) :
    ∃ a b : ℝ,
      rawScore (setExport u x₁ tbl) (setExportRow x₁ r) = FVal.fin a ∧
      rawScore (setExport u x₂ tbl) (setExportRow x₂ r) = FVal.fin b ∧
      a ≤ b := by
  have hG : r ∈ tbl.filter (fun r' => r'.role = r.role) :=
    List.mem_filter.mpr ⟨hr, by simp⟩
  have hk : 1 ≤ ownCount tbl u r.role := by
    unfold ownCount
    have hmem : r ∈ (tbl.filter (fun r' => r'.role = r.role)).filter
        (fun r' => r'.user_id = u) :=
      List.mem_filter.mpr ⟨hG, by simp [hu]⟩
    have := List.length_pos.mpr (List.ne_nil_of_mem hmem)
    omega
  obtain ⟨z1, hz1⟩ := zscoreVal_fin_of_mem r.privilege_usage_gap
    (roleVals tbl (fun r' => r'.privilege_usage_gap) r.role)
    (mem_roleVals tbl (fun r' => r'.privilege_usage_gap) r hr)
  obtain ⟨z2, hz2⟩ := zscoreVal_fin_of_mem r.privilege_usage_ratio
    (roleVals tbl (fun r' => r'.privilege_usage_ratio) r.role)
    (mem_roleVals tbl (fun r' => r'.privilege_usage_ratio) r hr)
  obtain ⟨z3, hz3⟩ := zscoreVal_fin_of_mem r.resource_access_concentration
    (roleVals tbl (fun r' => r'.resource_access_concentration) r.role)
    (mem_roleVals tbl (fun r' => r'.resource_access_concentration) r hr)
  obtain ⟨z5, hz5⟩ := zscoreVal_fin_of_mem r.avg_daily_access
    (roleVals tbl (fun r' => r'.avg_daily_access) r.role)
    (mem_roleVals tbl (fun r' => r'.avg_daily_access) r hr)
  obtain ⟨z6, hz6⟩ := zscoreVal_fin_of_mem r.unique_resources
    (roleVals tbl (fun r' => r'.unique_resources) r.role)
    (mem_roleVals tbl (fun r' => r'.unique_resources) r hr)
  obtain ⟨z7, hz7⟩ := zscoreVal_fin_of_mem r.night_access_pct
    (roleVals tbl (fun r' => r'.night_access_pct) r.role)
    (mem_roleVals tbl (fun r' => r'.night_access_pct) r hr)
  obtain ⟨z8, hz8⟩ := zscoreVal_fin_of_mem r.avg_session_duration
    (roleVals tbl (fun r' => r'.avg_session_duration) r.role)
    (mem_roleVals tbl (fun r' => r'.avg_session_duration) r hr)
  obtain ⟨z9, hz9⟩ := zscoreVal_fin_of_mem r.weekend_activity_ratio
    (roleVals tbl (fun r' => r'.weekend_activity_ratio) r.role)
    (mem_roleVals tbl (fun r' => r'.weekend_activity_ratio) r hr)
  obtain ⟨z10, hz10⟩ := zscoreVal_fin_of_mem r.access_time_variance
    (roleVals tbl (fun r' => r'.access_time_variance) r.role)
    (mem_roleVals tbl (fun r' => r'.access_time_variance) r hr)
  obtain ⟨z11, hz11⟩ := zscoreVal_fin_of_mem r.weekly_access_change
    (roleVals tbl (fun r' => r'.weekly_access_change) r.role)
    (mem_roleVals tbl (fun r' => r'.weekly_access_change) r hr)
  obtain ⟨z12, hz12⟩ := zscoreVal_fin_of_mem r.access_spike_score
    (roleVals tbl (fun r' => r'.access_spike_score) r.role)
    (mem_roleVals tbl (fun r' => r'.access_spike_score) r hr)
  have e : ∀ x : ℚ, rawScore (setExport u x tbl) (setExportRow x r) =
      FVal.fin (0 + z1 * ((15/100 : ℚ) : ℝ) + z2 * ((10/100 : ℚ) : ℝ) +
        z3 * ((5/100 : ℚ) : ℝ) + zExport tbl u r.role x * ((15/100 : ℚ) : ℝ) +
        z5 * ((12/100 : ℚ) : ℝ) + z6 * ((10/100 : ℚ) : ℝ) +
        z7 * ((8/100 : ℚ) : ℝ) + z8 * ((6/100 : ℚ) : ℝ) +
        z9 * ((4/100 : ℚ) : ℝ) + z10 * ((5/100 : ℚ) : ℝ) +
        z11 * ((5/100 : ℚ) : ℝ) + z12 * ((5/100 : ℚ) : ℝ)) := by
    intro x
    unfold rawScore riskWeights
    simp only [List.foldl_cons, List.foldl_nil, setExportRow]
    rw [roleVals_setExport_exp tbl u x r.role,
      roleVals_setExport_other tbl u x r.role (fun r' => r'.privilege_usage_gap)
        (fun r' => rfl),
      roleVals_setExport_other tbl u x r.role (fun r' => r'.privilege_usage_ratio)
        (fun r' => rfl),
      roleVals_setExport_other tbl u x r.role
        (fun r' => r'.resource_access_concentration) (fun r' => rfl),
      roleVals_setExport_other tbl u x r.role (fun r' => r'.avg_daily_access)
        (fun r' => rfl),
      roleVals_setExport_other tbl u x r.role (fun r' => r'.unique_resources)
        (fun r' => rfl),
      roleVals_setExport_other tbl u x r.role (fun r' => r'.night_access_pct)
        (fun r' => rfl),
      roleVals_setExport_other tbl u x r.role (fun r' => r'.avg_session_duration)
        (fun r' => rfl),
      roleVals_setExport_other tbl u x r.role (fun r' => r'.weekend_activity_ratio)
        (fun r' => rfl),
      roleVals_setExport_other tbl u x r.role (fun r' => r'.access_time_variance)
        (fun r' => rfl),
      roleVals_setExport_other tbl u x r.role (fun r' => r'.weekly_access_change)
        (fun r' => rfl),
      roleVals_setExport_other tbl u x r.role (fun r' => r'.access_spike_score)
        (fun r' => rfl)]
    rw [hz1, hz2, hz3, zscore_export_eq tbl u r.role x hk, hz5, hz6, hz7, hz8,
      hz9, hz10, hz11, hz12]
    simp only [FVal.mul_fin_fin, FVal.add_fin_fin]
  have hterm := mul_le_mul_of_nonneg_right
    (zExport_mono tbl u r.role hk x₁ x₂ hx)
    (show (0 : ℝ) ≤ ((15/100 : ℚ) : ℝ) by positivity)
  exact ⟨_, _, e x₁, e x₂, by linarith [hterm]⟩

theorem export_ratio_raw_monotone_witness :
    cB ∈ cTbl 13 ∧ cB.user_id = 2 ∧ (0 : ℚ) ≤ 1 ∧
    (∃ a b : ℝ,
      rawScore (setExport 2 0 (cTbl 13)) (setExportRow 0 cB) = FVal.fin a ∧
      rawScore (setExport 2 1 (cTbl 13)) (setExportRow 1 cB) = FVal.fin b ∧
      a ≤ b) :=
  ⟨by simp [cTbl], rfl, by norm_num,
    export_ratio_raw_monotone (cTbl 13) 2 cB (by simp [cTbl]) rfl 0 1 (by norm_num)⟩
